import Mathlib

/-!
# Verification of the barbershop audio-fingerprinting core

A shallow embedding of the Go sources of `lukechampine/barbershop`:
the signature codec (`shazam/signature.go`: `encode`, `decode`),
the signature builder (`ComputeSignature`), the search driver
(`audio.go`: `trackIdentifier`), and the identification client's
request fields (`Identify`).

Machine integers are modelled as `Nat`/`Int` with explicit `% 2^w`
truncation where the Go code converts through `uint8`/`uint16`/`uint32`.
Byte buffers are `List Nat` with every element below 256 by
construction.  Fallible code returns `Except`; a Go runtime panic
(slice out of range, index out of range) is modelled by the dedicated
error value `DecodeError.panic`.
-/

namespace Barbershop

/-! ## Little-endian byte helpers (`encoding/binary`) -/

/-- The four little-endian bytes of `w` truncated to 32 bits
(`binary.LittleEndian.PutUint32`). -/
def le32n (w : Nat) : List Nat :=
  [w % 256, w / 256 % 256, w / 65536 % 256, w / 16777216 % 256]

/-- Go `uint32(z)` for a Go `int` value `z`. -/
def toU32 (z : Int) : Nat := (z % 4294967296).toNat

/-- Go `uint16(z)` for a Go `int` value `z`. -/
def toU16 (z : Int) : Nat := (z % 65536).toNat

/-- Go `uint8(z)` for a Go `int` value `z`. -/
def toU8 (z : Int) : Nat := (z % 256).toNat

/-- `PutUint32` of a Go `int` converted through `uint32`. -/
def le32 (z : Int) : List Nat := le32n (toU32 z)

/-- `binary.Write` of a Go `int` converted through `uint16`
(two little-endian bytes). -/
def le16 (z : Int) : List Nat := [toU16 z % 256, toU16 z / 256]

/-- Strict application: force a `Nat` to a numeral before continuing.
Semantically the identity (`strict_apply`); it models Go's strict
evaluation order and keeps kernel reduction of the loops below at
constant stack depth. -/
def strict {α : Sort _} (n : Nat) (k : Nat → α) : α :=
  match n with
  | 0 => k 0
  | m + 1 => k (m + 1)

theorem strict_apply {α : Sort _} (n : Nat) (k : Nat → α) : strict n k = k n := by
  cases n <;> rfl

/-! ## CRC-32 (IEEE), as `hash/crc32.ChecksumIEEE` -/

/-- One bit of the reflected CRC-32 computation with polynomial
`0xEDB88320`. -/
def crcStep (c : Nat) : Nat :=
  if c % 2 = 1 then (c / 2) ^^^ 0xEDB88320 else c / 2

/-- Absorb one byte into the CRC register. -/
def crcByte (c b : Nat) : Nat := crcStep^[8] (c ^^^ b)

/-- The CRC register after absorbing a byte list (the Go loop keeps the
register strict). -/
def crcLoop : Nat → List Nat → Nat
  | c, [] => c
  | c, b :: l => strict (crcByte c b) fun c' => crcLoop c' l

/-- `crc32.ChecksumIEEE` over a byte list. -/
def crc32 (l : List Nat) : Nat :=
  crcLoop 0xFFFFFFFF l ^^^ 0xFFFFFFFF

/-! ## The signature data model (`shazam/signature.go`) -/

/-- `frequencyPeak`: a peak detected at FFT pass `pass`, with quantized
magnitude and sub-bin-precise frequency index.  The Go fields are `int`. -/
structure FrequencyPeak where
  pass : Int
  magnitude : Int
  bin : Int
deriving DecidableEq, Repr

/-- `Signature`: sample-rate and sample-count metadata plus five bands of
frequency peaks.  The Go array `[5][]frequencyPeak` is modelled as a list
whose length is 5 for every signature the program constructs. -/
structure Signature where
  sampleRate : Int
  numSamples : Int
  peaksByBand : List (List FrequencyPeak)
deriving DecidableEq, Repr

/-- `convertSampleRate`: the self-inverse Go map sending a rate code to a
sample rate and back; absent keys yield the zero value 0. -/
def convertSampleRate (x : Int) : Int :=
  if x = 1 then 8000
  else if x = 2 then 11025
  else if x = 3 then 16000
  else if x = 4 then 32000
  else if x = 5 then 44100
  else if x = 8000 then 1
  else if x = 11025 then 2
  else if x = 16000 then 3
  else if x = 32000 then 4
  else if x = 44100 then 5
  else 0

/-- Models `uint32(float64(sampleRate) * 0.24)` from `encode`/`decode`.
For every sample rate reachable in this development (0 and the five
supported rates 8000, 11025, 16000, 32000, 44100) the IEEE-754 double
product rounds to the exact integer `sampleRate * 24 / 100`, so the
float detour is modelled by exact integer arithmetic. -/
def rateOff (r : Int) : Nat := toU32 ((r * 24).tdiv 100)

/-! ## `Signature.encode` -/

/-- The per-band peak stream of `encode`: running-delta pass encoding with
an `0xFF` + absolute `uint32` escape for deltas of 255 or more. -/
def streamOf : List FrequencyPeak → Int → List Nat
  | [], _ => []
  | p :: ps, last =>
    if p.pass - last ≥ 255 then
      -- 0xFF marker, absolute uint32 pass, then uint8(pass-pass) = 0
      255 :: (le32 p.pass ++ (0 :: (le16 p.magnitude ++ le16 p.bin ++ streamOf ps p.pass)))
    else
      toU8 (p.pass - last) :: (le16 p.magnitude ++ le16 p.bin ++ streamOf ps p.pass)

/-- Zero-padding of a peak stream up to a 4-byte boundary. -/
def pad4 (l : List Nat) : List Nat :=
  l ++ List.replicate ((4 - l.length % 4) % 4) 0

/-- The payload blocks of `encode`: one `tag ++ size ++ padded stream`
block per non-empty band, in band order. -/
def encodeBlocks : Nat → List (List FrequencyPeak) → List Nat
  | _, [] => []
  | band, ps :: rest =>
    (if ps = [] then [] else
      le32n (0x60030040 + band) ++ le32n (streamOf ps 0).length ++ pad4 (streamOf ps 0))
      ++ encodeBlocks (band + 1) rest

/-- The 56-byte header of `encode` before the checksum and the two length
fields are patched in (they are written as zeros first). -/
def encodeHeader (s : Signature) : List Nat :=
  le32n 0xcafe2580 ++ le32n 0 ++ le32n 0 ++ le32n 0x94119c00 ++
  le32n 0 ++ le32n 0 ++ le32n 0 ++
  le32n (toU32 (convertSampleRate s.sampleRate) <<< 27) ++
  le32n 0 ++ le32n 0 ++
  le32n (toU32 s.numSamples + rateOff s.sampleRate) ++
  le32n 0x007c0000 ++ le32n 0x40000000 ++ le32n 0

/-- `binary.LittleEndian.PutUint32(buf[i:i+4], w)`: overwrite four bytes
at offset `i` (every use in `encode` has `i + 4 ≤ buf.length`). -/
def setU32 (l : List Nat) (i : Nat) (w : Nat) : List Nat :=
  l.take i ++ le32n w ++ l.drop (i + 4)

/-- `Signature.encode`: header and payload, then the two length fields
(offsets 8 and 52, both `len(buf[48:])`) and finally the CRC-32 of
everything from offset 8 are patched in. -/
def encode (s : Signature) : List Nat :=
  let body := encodeHeader s ++ encodeBlocks 0 s.peaksByBand
  let L := body.length - 48
  let b1 := setU32 body 8 L
  let b2 := setU32 b1 52 L
  setU32 b2 4 (crc32 (b2.drop 8))

/-! ## `Signature.decode` -/

/-- The error outcomes of `decode`.  The first seven model the Go
`fmt.Errorf` returns ("bad magic1", "bad checksum", "bad length",
"bad magic2", "bad magic3", "bad magic4", "bad length2"); `panic`
models a Go runtime panic (slice bounds or band index out of range). -/
inductive DecodeError where
  | badMagic1 | badChecksum | badLength | badMagic2
  | badMagic3 | badMagic4 | badLength2
  | panic
deriving DecidableEq, Repr

/-- The decoder's `next()`: read a little-endian `uint32` and advance.
Fewer than four remaining bytes is a slice panic in Go. -/
def next : List Nat → Except DecodeError (Nat × List Nat)
  | b0 :: b1 :: b2 :: b3 :: rest =>
    .ok (b0 + 256 * b1 + 65536 * b2 + 16777216 * b3, rest)
  | _ => .error .panic

/-- The inner peak-stream loop of `decode`.  `binary.Read` failures on a
truncated stream are silently ignored in Go (the variable keeps its zero
value and the reader is drained), which the short branches mirror. -/
def parseStream : Nat → List FrequencyPeak → List Nat → List FrequencyPeak
  | _, acc, [] => acc
  | pass, acc, off :: rest =>
    if off = 255 then
      match rest with
      | b0 :: b1 :: b2 :: b3 :: r =>
        parseStream (b0 + 256 * b1 + 65536 * b2 + 16777216 * b3) acc r
      | _ => acc
    else
      let pass' := (pass + off) % 4294967296
      match rest with
      | m0 :: m1 :: c0 :: c1 :: r =>
        parseStream pass' (acc ++ [⟨(pass' : Int), ((m0 + 256 * m1 : Nat) : Int), ((c0 + 256 * c1 : Nat) : Int)⟩]) r
      | [m0, m1, _] => acc ++ [⟨(pass' : Int), ((m0 + 256 * m1 : Nat) : Int), 0⟩]
      | [m0, m1] => acc ++ [⟨(pass' : Int), ((m0 + 256 * m1 : Nat) : Int), 0⟩]
      | [_] => acc ++ [⟨(pass' : Int), 0, 0⟩]
      | [] => acc ++ [⟨(pass' : Int), 0, 0⟩]

/-- The payload loop of `decode`, guarded by fuel: read a band tag and a
size, parse the unpadded stream, then skip the padded stream.  A size
beyond the remaining buffer is a slice panic.  The band index is only
evaluated by `s.peaksByBand[band] = append(...)`, once per decoded peak
entry: a block whose stream decodes no entry never touches the band
table, so an out-of-range tag is then silently skipped; when at least
one entry decodes, a band index outside `[0, 5)` is an array-index
panic in Go.  Every iteration consumes at least eight bytes, so fuel
`buf.length + 1` (used by `parseBlocks`) never runs out; the fuel only
makes the recursion structural. -/
def parseBlocksF : Nat → List (List FrequencyPeak) → List Nat → Except DecodeError (List (List FrequencyPeak))
  | _, bands, [] => .ok bands
  | fuel + 1, bands, t0 :: t1 :: t2 :: t3 :: s0 :: s1 :: s2 :: s3 :: r2 =>
    let tag := t0 + 256 * t1 + 65536 * t2 + 16777216 * t3
    let size := s0 + 256 * s1 + 65536 * s2 + 16777216 * s3
    let band := (tag + 4294967296 - 0x60030040) % 4294967296
    if size ≤ r2.length then
      let peaks := parseStream 0 [] (r2.take size)
      let padded := size + (4 - size % 4) % 4
      if padded ≤ r2.length then
        if peaks = [] then parseBlocksF fuel bands (r2.drop padded)
        else if band < 5 then
          parseBlocksF fuel (bands.set band (bands.getD band [] ++ peaks)) (r2.drop padded)
        else .error .panic
      else .error .panic
    else .error .panic
  | _, _, _ => .error .panic

/-- The payload loop of `decode` (see `parseBlocksF`). -/
def parseBlocks (bands : List (List FrequencyPeak)) (buf : List Nat) : Except DecodeError (List (List FrequencyPeak)) :=
  parseBlocksF (buf.length + 1) bands buf

/-- `Signature.decode`.  The reads and checks mirror the Go source line
by line; `next` models the decoder's `next()` closure. -/
def decode (buf : List Nat) : Except DecodeError Signature :=
  match next buf with
  | .error e => .error e
  | .ok (w1, b1) =>
  if w1 ≠ 0xcafe2580 then .error .badMagic1 else
  match next b1 with
  | .error e => .error e
  | .ok (c, b2) =>
  if c ≠ crc32 b2 then .error .badChecksum else
  match next b2 with
  | .error e => .error e
  | .ok (l1, b3) =>
  -- Go evaluates uint32(len(buf[36:])), a slice panic when fewer than 36 remain
  if b3.length < 36 then .error .panic else
  if l1 ≠ (b3.length - 36) % 4294967296 then .error .badLength else
  match next b3 with
  | .error e => .error e
  | .ok (w4, b4) =>
  if w4 ≠ 0x94119c00 then .error .badMagic2 else
  match next b4 with
  | .error e => .error e
  | .ok (_, b5) =>
  match next b5 with
  | .error e => .error e
  | .ok (_, b6) =>
  match next b6 with
  | .error e => .error e
  | .ok (_, b7) =>
  match next b7 with
  | .error e => .error e
  | .ok (w8, b8) =>
  let sr := convertSampleRate ((w8 >>> 27 : Nat) : Int)
  match next b8 with
  | .error e => .error e
  | .ok (_, b9) =>
  match next b9 with
  | .error e => .error e
  | .ok (_, b10) =>
  match next b10 with
  | .error e => .error e
  | .ok (w11, b11) =>
  let ns : Int := (((w11 + 4294967296 - rateOff sr) % 4294967296 : Nat) : Int)
  match next b11 with
  | .error e => .error e
  | .ok (w12, b12) =>
  if w12 ≠ 0x007c0000 then .error .badMagic3 else
  match next b12 with
  | .error e => .error e
  | .ok (w13, b13) =>
  if w13 ≠ 0x40000000 then .error .badMagic4 else
  match next b13 with
  | .error e => .error e
  | .ok (w14, b14) =>
  if w14 ≠ (b14.length % 4294967296 + 8) % 4294967296 then .error .badLength2 else
  match parseBlocks [[], [], [], [], []] b14 with
  | .error e => .error e
  | .ok bands => .ok { sampleRate := sr, numSamples := ns, peaksByBand := bands }

deriving instance DecidableEq for Except

/-! ## Validity predicates for signatures -/

/-- The five sample rates the codec supports. -/
def validRate (r : Int) : Bool :=
  r = 8000 || r = 11025 || r = 16000 || r = 32000 || r = 44100

/-- A band's peaks in non-decreasing `pass` order starting from `last`,
with `pass` a `uint32` value and `magnitude`, `bin` `uint16` values. -/
def peaksOk : Int → List FrequencyPeak → Bool
  | _, [] => true
  | last, p :: ps =>
    (last ≤ p.pass && p.pass < 4294967296 &&
     0 ≤ p.magnitude && p.magnitude < 65536 &&
     0 ≤ p.bin && p.bin < 65536) && peaksOk p.pass ps

/-- Validity of a signature exactly as the round-trip claim states it:
a supported sample rate, a non-negative sample count, and five bands of
field-width-representable peaks in non-decreasing pass order.  (No upper
bound on `numSamples`.) -/
def claimValidSig (s : Signature) : Bool :=
  validRate s.sampleRate && 0 ≤ s.numSamples &&
  s.peaksByBand.length = 5 && s.peaksByBand.all (peaksOk 0)

/-- Validity with the `uint32` bound on `numSamples` that the encoded
field width forces. -/
def validSig (s : Signature) : Bool :=
  claimValidSig s && s.numSamples < 4294967296

/-! ## Codec lemmas -/

theorem le32n_length (w : Nat) : (le32n w).length = 4 := rfl

theorem next_le32n (w : Nat) (rest : List Nat) :
    next (le32n w ++ rest) = .ok (w % 4294967296, rest) := by
  simp only [le32n, List.cons_append, List.nil_append, next]
  congr 1
  congr 1
  omega

/-- Everything `encode` lays down after the stored checksum. -/
def encodeTail (s : Signature) : List Nat :=
  le32n ((encodeBlocks 0 s.peaksByBand).length + 8) ++ le32n 0x94119c00 ++
  le32n 0 ++ le32n 0 ++ le32n 0 ++
  le32n (toU32 (convertSampleRate s.sampleRate) <<< 27) ++
  le32n 0 ++ le32n 0 ++
  le32n (toU32 s.numSamples + rateOff s.sampleRate) ++
  le32n 0x007c0000 ++ le32n 0x40000000 ++
  le32n ((encodeBlocks 0 s.peaksByBand).length + 8) ++ encodeBlocks 0 s.peaksByBand

/-- `encode` in fully patched form: magic, checksum over the tail, tail. -/
theorem encode_eq (s : Signature) :
    encode s = le32n 0xcafe2580 ++ le32n (crc32 (encodeTail s)) ++ encodeTail s := by
  have hL : (encodeHeader s ++ encodeBlocks 0 s.peaksByBand).length - 48 =
      (encodeBlocks 0 s.peaksByBand).length + 8 := by
    simp [encodeHeader, le32n]
  simp only [encode, hL]
  simp only [encodeTail, encodeHeader, setU32, le32n, List.cons_append, List.nil_append,
    List.take_succ_cons, List.take_zero, List.drop_succ_cons, List.drop_zero]

theorem reassemble_le32n (w : Nat) :
    w % 256 + 256 * (w / 256 % 256) + 65536 * (w / 65536 % 256) +
      16777216 * (w / 16777216 % 256) = w % 4294967296 := by
  omega

theorem toU32_lt (z : Int) : toU32 z < 4294967296 := by
  simp only [toU32]
  omega

theorem toU32_coe (z : Int) (h0 : 0 ≤ z) (h1 : z < 4294967296) :
    ((toU32 z : Nat) : Int) = z := by
  simp only [toU32]
  omega

theorem toU16_coe (z : Int) (h0 : 0 ≤ z) (h1 : z < 65536) :
    ((toU16 z : Nat) : Int) = z := by
  simp only [toU16]
  omega

theorem toU16_lt (z : Int) : toU16 z < 65536 := by
  simp only [toU16]
  omega

theorem toU8_coe (z : Int) (h0 : 0 ≤ z) (h1 : z < 256) :
    ((toU8 z : Nat) : Int) = z := by
  simp only [toU8]
  omega

/-- `parseStream` on an `0xFF` marker: the running pass is replaced by the
absolute `uint32` that follows. -/
theorem parseStream_marker (pass : Nat) (acc : List FrequencyPeak) (w : Nat) (r : List Nat)
    (hw : w < 4294967296) :
    parseStream pass acc (255 :: (le32n w ++ r)) = parseStream w acc r := by
  simp only [le32n, List.cons_append, List.nil_append]
  simp only [parseStream, reduceIte]
  rw [reassemble_le32n, Nat.mod_eq_of_lt hw]

/-- `parseStream` on a small delta followed by a magnitude and a bin:
one peak is appended. -/
theorem parseStream_delta (pass : Nat) (acc : List FrequencyPeak) (d mg bn : Nat) (r : List Nat)
    (hd : d < 255) :
    parseStream pass acc (d :: ([mg % 256, mg / 256] ++ ([bn % 256, bn / 256] ++ r))) =
      parseStream ((pass + d) % 4294967296)
        (acc ++ [⟨(((pass + d) % 4294967296 : Nat) : Int), (mg : Int), (bn : Int)⟩]) r := by
  have hne : ¬(d = 255) := by omega
  simp only [List.cons_append, List.nil_append]
  simp only [parseStream, if_neg hne]
  rw [show (mg % 256 + 256 * (mg / 256) : Nat) = mg by omega,
      show (bn % 256 + 256 * (bn / 256) : Nat) = bn by omega]

/-- Parsing the encoded stream of a valid band recovers its peaks. -/
theorem parseStream_streamOf (ps : List FrequencyPeak) :
    ∀ (last : Nat) (acc : List FrequencyPeak), last < 4294967296 →
      peaksOk (last : Int) ps = true →
      parseStream last acc (streamOf ps (last : Int)) = acc ++ ps := by
  induction ps with
  | nil =>
    intro last acc _ _
    simp [streamOf, parseStream]
  | cons p ps ih =>
    intro last acc hlast hok
    obtain ⟨pp, pm, pb⟩ := p
    simp only [peaksOk, Bool.and_eq_true, decide_eq_true_eq] at hok
    obtain ⟨⟨⟨⟨⟨⟨hle, hp32⟩, hm0⟩, hm1⟩, hb0⟩, hb1⟩, hrest⟩ := hok
    have hpass0 : (0 : Int) ≤ pp := le_trans (Int.natCast_nonneg last) hle
    have hcoe : ((toU32 pp : Nat) : Int) = pp := toU32_coe _ hpass0 hp32
    have ihx : parseStream (toU32 pp) (acc ++ [⟨pp, pm, pb⟩]) (streamOf ps pp) =
        (acc ++ [⟨pp, pm, pb⟩]) ++ ps := by
      have := ih (toU32 pp) (acc ++ [⟨pp, pm, pb⟩]) (toU32_lt _) (by rw [hcoe]; exact hrest)
      rwa [hcoe] at this
    have hpeak : (⟨((toU32 pp : Nat) : Int), ((toU16 pm : Nat) : Int),
        ((toU16 pb : Nat) : Int)⟩ : FrequencyPeak) = ⟨pp, pm, pb⟩ := by
      have h1 := toU16_coe pm hm0 hm1
      have h2 := toU16_coe pb hb0 hb1
      simp_all
    by_cases hjump : pp - (last : Int) ≥ 255
    · -- 0xFF marker with absolute pass, then a zero delta
      rw [streamOf, if_pos hjump]
      simp only [le32]
      rw [parseStream_marker _ _ _ _ (toU32_lt _)]
      simp only [le16, List.append_assoc]
      rw [parseStream_delta _ _ 0 _ _ _ (by omega)]
      simp only [Nat.add_zero, Nat.mod_eq_of_lt (toU32_lt pp)]
      rw [hpeak, ihx]
      simp
    · -- small delta
      rw [streamOf, if_neg hjump]
      have hd0 : (0 : Int) ≤ pp - last := by omega
      have hdu : ((toU8 (pp - last) : Nat) : Int) = pp - last :=
        toU8_coe _ hd0 (by omega)
      have hdlt : toU8 (pp - (last : Int)) < 255 := by omega
      simp only [le16, List.append_assoc]
      rw [parseStream_delta _ _ _ _ _ _ hdlt]
      have hpassn : (last + toU8 (pp - (last : Int))) % 4294967296 = toU32 pp := by omega
      rw [hpassn, hpeak, ihx]
      simp

theorem pad4_length (l : List Nat) :
    (pad4 l).length = l.length + (4 - l.length % 4) % 4 := by
  simp [pad4]

/-- Parsing the encoded payload blocks recovers the bands.  `pre` is the
already-filled prefix of the decoder's band table; the remaining slots
are still empty. -/
theorem parseBlocksF_encodeBlocks (bands : List (List FrequencyPeak)) :
    ∀ (idx : Nat) (pre : List (List FrequencyPeak)) (fuel : Nat),
      idx + bands.length = 5 → pre.length = idx →
      bands.all (peaksOk 0) = true →
      (encodeBlocks idx bands).length + 1 ≤ fuel →
      (encodeBlocks idx bands).length < 4294967296 →
      parseBlocksF fuel (pre ++ List.replicate (5 - idx) []) (encodeBlocks idx bands) =
        .ok (pre ++ bands) := by
  induction bands with
  | nil =>
    intro idx pre fuel hidx hpre _ _ _
    simp only [List.length_nil] at hidx
    have h5 : 5 - idx = 0 := by omega
    simp [encodeBlocks, parseBlocksF, h5]
  | cons ps rest ih =>
    intro idx pre fuel hidx hpre hok hfuel hsz
    simp only [List.length_cons] at hidx
    simp only [List.all_cons, Bool.and_eq_true] at hok
    obtain ⟨hok1, hokr⟩ := hok
    by_cases hempty : ps = []
    · subst hempty
      rw [encodeBlocks, if_pos rfl, List.nil_append] at hfuel hsz ⊢
      have hrep : (pre ++ List.replicate (5 - idx) []) =
          (pre ++ [[]]) ++ List.replicate (5 - (idx + 1)) [] := by
        have : 5 - idx = (5 - (idx + 1)) + 1 := by omega
        rw [this, List.replicate_succ, List.append_assoc]
        rfl
      rw [hrep, ih (idx + 1) (pre ++ [[]]) fuel (by omega) (by simp [hpre]) hokr hfuel hsz]
      simp
    · rw [encodeBlocks, if_neg hempty] at hfuel hsz ⊢
      -- fuel is positive
      rcases fuel with _ | f
      · simp at hfuel
      -- expose the eight header bytes of the block
      simp only [List.append_assoc, List.length_append, le32n_length, pad4_length] at hfuel hsz ⊢
      have hst : (streamOf ps 0).length < 4294967296 := by omega
      have hidx5 : idx < 5 := by omega
      simp only [le32n, List.cons_append, List.nil_append]
      simp only [parseBlocksF, reassemble_le32n]
      rw [show ((0x60030040 + idx) % 4294967296 + 4294967296 - 0x60030040) % 4294967296 = idx
            by omega,
          show (streamOf ps 0).length % 4294967296 = (streamOf ps 0).length by omega]
      have hlen2 : (streamOf ps 0).length ≤ (pad4 (streamOf ps 0) ++ encodeBlocks (idx + 1) rest).length := by
        simp only [List.length_append, pad4_length]
        omega
      rw [if_pos hlen2]
      have htake : (pad4 (streamOf ps 0) ++ encodeBlocks (idx + 1) rest).take (streamOf ps 0).length
          = streamOf ps 0 := by
        simp only [pad4, List.append_assoc]
        exact List.take_left' rfl
      have hpad : (streamOf ps 0).length + (4 - (streamOf ps 0).length % 4) % 4
          = (pad4 (streamOf ps 0)).length := (pad4_length _).symm
      have hdroplen : (streamOf ps 0).length + (4 - (streamOf ps 0).length % 4) % 4
          ≤ (pad4 (streamOf ps 0) ++ encodeBlocks (idx + 1) rest).length := by
        simp only [List.length_append, pad4_length]
        omega
      rw [if_pos hdroplen]
      have hdrop : (pad4 (streamOf ps 0) ++ encodeBlocks (idx + 1) rest).drop
          ((streamOf ps 0).length + (4 - (streamOf ps 0).length % 4) % 4)
          = encodeBlocks (idx + 1) rest := by
        rw [hpad]
        exact List.drop_left _ _
      rw [htake, hdrop]
      -- the parsed peaks are exactly this band's peaks
      have hparse : parseStream 0 [] (streamOf ps 0) = ps := by
        have := parseStream_streamOf ps 0 [] (by norm_num) (by simpa using hok1)
        simpa using this
      rw [hparse, if_neg hempty, if_pos hidx5]
      -- the band-table update fills slot `idx`
      have hrep : 5 - idx = (5 - (idx + 1)) + 1 := by omega
      have hgetd : (pre ++ List.replicate (5 - idx) []).getD idx [] = [] := by
        rw [List.getD_eq_getElem?_getD, List.getElem?_append_right (by omega),
          hpre, Nat.sub_self, hrep, List.replicate_succ]
        simp
      have hset : (pre ++ List.replicate (5 - idx) []).set idx ([] ++ ps)
          = (pre ++ [ps]) ++ List.replicate (5 - (idx + 1)) [] := by
        rw [List.set_append_right _ _ (by omega), hpre, Nat.sub_self, hrep,
          List.replicate_succ, List.append_assoc]
        rfl
      rw [hgetd, hset,
        ih (idx + 1) (pre ++ [ps]) f (by omega) (by simp [hpre]) hokr (by omega) (by omega)]
      simp

/-! ## Byte bounds and CRC register bounds -/

theorem toU8_lt (z : Int) : toU8 z < 256 := by
  simp only [toU8]
  omega

theorem mem_le32n {b w : Nat} (h : b ∈ le32n w) : b < 256 := by
  simp only [le32n, List.mem_cons, List.not_mem_nil, or_false] at h
  rcases h with rfl | rfl | rfl | rfl <;> omega

theorem mem_le16 {b : Nat} {z : Int} (h : b ∈ le16 z) : b < 256 := by
  have := toU16_lt z
  simp only [le16, List.mem_cons, List.not_mem_nil, or_false] at h
  rcases h with rfl | rfl <;> omega

theorem mem_streamOf {b : Nat} : ∀ (ps : List FrequencyPeak) (last : Int),
    b ∈ streamOf ps last → b < 256 := by
  intro ps
  induction ps with
  | nil => intro last h; simp [streamOf] at h
  | cons p ps ih =>
    intro last h
    rw [streamOf] at h
    split at h
    · simp only [List.mem_cons, List.mem_append, le32] at h
      rcases h with rfl | h
      · omega
      rcases h with h | rfl | h
      · exact mem_le32n h
      · omega
      rcases h with (h | h) | h
      · exact mem_le16 h
      · exact mem_le16 h
      · exact ih _ h
    · simp only [List.mem_cons, List.mem_append] at h
      rcases h with rfl | h
      · exact toU8_lt _
      rcases h with (h | h) | h
      · exact mem_le16 h
      · exact mem_le16 h
      · exact ih _ h

theorem mem_pad4 {b : Nat} {l : List Nat} (h : b ∈ pad4 l) (hl : ∀ x ∈ l, x < 256) :
    b < 256 := by
  simp only [pad4, List.mem_append] at h
  rcases h with h | h
  · exact hl _ h
  · have := List.eq_of_mem_replicate h
    omega

theorem mem_encodeBlocks {b : Nat} : ∀ (idx : Nat) (bands : List (List FrequencyPeak)),
    b ∈ encodeBlocks idx bands → b < 256 := by
  intro idx bands
  induction bands generalizing idx with
  | nil => intro h; simp [encodeBlocks] at h
  | cons ps rest ih =>
    intro h
    rw [encodeBlocks] at h
    simp only [List.mem_append] at h
    rcases h with h | h
    · split at h
      · simp at h
      · simp only [List.mem_append] at h
        rcases h with (h | h) | h
        · exact mem_le32n h
        · exact mem_le32n h
        · exact mem_pad4 h fun x hx => mem_streamOf ps 0 hx
    · exact ih _ h

theorem mem_encodeTail {b : Nat} {s : Signature} (h : b ∈ encodeTail s) : b < 256 := by
  simp only [encodeTail, List.append_assoc, List.mem_append] at h
  rcases h with h | h | h | h | h | h | h | h | h | h | h | h | h
  all_goals first
    | exact mem_le32n h
    | exact mem_encodeBlocks _ _ h

theorem crcStep_lt {c : Nat} (h : c < 4294967296) : crcStep c < 4294967296 := by
  have h32 : (4294967296 : Nat) = 2 ^ 32 := by norm_num
  rw [crcStep]
  split
  · rw [h32]
    exact Nat.xor_lt_two_pow (by omega) (by norm_num)
  · omega

theorem crcStep_iter_lt {c : Nat} (h : c < 4294967296) :
    ∀ n, crcStep^[n] c < 4294967296 := by
  intro n
  induction n generalizing c with
  | zero => simpa using h
  | succ n ih =>
    rw [Function.iterate_succ_apply]
    exact ih (crcStep_lt h)

theorem crcByte_lt {c b : Nat} (hc : c < 4294967296) (hb : b < 4294967296) :
    crcByte c b < 4294967296 := by
  have h32 : (4294967296 : Nat) = 2 ^ 32 := by norm_num
  rw [crcByte]
  exact crcStep_iter_lt (by rw [h32] at hc hb ⊢; exact Nat.xor_lt_two_pow hc hb) 8

theorem crcLoop_lt : ∀ (l : List Nat) (c : Nat), c < 4294967296 →
    (∀ b ∈ l, b < 4294967296) → crcLoop c l < 4294967296 := by
  intro l
  induction l with
  | nil => intro c hc _; simpa [crcLoop] using hc
  | cons b l ih =>
    intro c hc hb
    rw [crcLoop, strict_apply]
    exact ih _ (crcByte_lt hc (hb b (by simp))) fun x hx => hb x (by simp [hx])

theorem crc32_lt (l : List Nat) (h : ∀ b ∈ l, b < 4294967296) : crc32 l < 4294967296 := by
  have h32 : (4294967296 : Nat) = 2 ^ 32 := by norm_num
  rw [crc32, h32]
  exact Nat.xor_lt_two_pow (by rw [← h32]; exact crcLoop_lt l _ (by norm_num) h) (by norm_num)

theorem rateOff_lt (r : Int) : rateOff r < 4294967296 := toU32_lt _

set_option maxHeartbeats 1000000 in
theorem decode_encode (s : Signature) (hv : validSig s = true)
    (hsz : (encodeBlocks 0 s.peaksByBand).length + 8 < 4294967296) :
    decode (encode s) = .ok s := by
  simp only [validSig, claimValidSig, Bool.and_eq_true, decide_eq_true_eq] at hv
  obtain ⟨⟨⟨⟨hrate, hns0⟩, hlen5⟩, hall⟩, hns1⟩ := hv
  have hC : crc32 (encodeTail s) < 4294967296 :=
    crc32_lt _ fun b hb => lt_trans (mem_encodeTail hb) (by norm_num)
  have hC' : crc32 (encodeTail s) % 4294967296 = crc32 (encodeTail s) := Nat.mod_eq_of_lt hC
  have hrate5 : s.sampleRate = 8000 ∨ s.sampleRate = 11025 ∨ s.sampleRate = 16000 ∨
      s.sampleRate = 32000 ∨ s.sampleRate = 44100 := by
    simp only [validRate, Bool.or_eq_true, decide_eq_true_eq] at hrate
    tauto
  have hcode : ∃ k : Nat, k ≤ 5 ∧ convertSampleRate s.sampleRate = (k : Int) ∧
      convertSampleRate ((k : Nat) : Int) = s.sampleRate := by
    rcases hrate5 with h | h | h | h | h <;> rw [h]
    · exact ⟨1, by norm_num, by decide, by decide⟩
    · exact ⟨2, by norm_num, by decide, by decide⟩
    · exact ⟨3, by norm_num, by decide, by decide⟩
    · exact ⟨4, by norm_num, by decide, by decide⟩
    · exact ⟨5, by norm_num, by decide, by decide⟩
  obtain ⟨k, hk5, hkc, hkr⟩ := hcode
  have htk : toU32 (convertSampleRate s.sampleRate) = k := by
    rw [hkc]
    simp only [toU32]
    omega
  have hsh : (k <<< 27) % 4294967296 = k <<< 27 := by
    rw [Nat.shiftLeft_eq]
    omega
  have hsh2 : (k <<< 27) >>> 27 = k := by
    rw [Nat.shiftLeft_eq, Nat.shiftRight_eq_div_pow]
    omega
  have hLmod : ((encodeBlocks 0 s.peaksByBand).length + 8) % 4294967296 =
      (encodeBlocks 0 s.peaksByBand).length + 8 := Nat.mod_eq_of_lt hsz
  have hR := rateOff_lt s.sampleRate
  have hns : ((toU32 s.numSamples + rateOff s.sampleRate) % 4294967296 + 4294967296 -
      rateOff s.sampleRate) % 4294967296 = toU32 s.numSamples := by
    have := toU32_lt s.numSamples
    omega
  have hnscast : ((toU32 s.numSamples : Nat) : Int) = s.numSamples := toU32_coe _ hns0 hns1
  have hPB : parseBlocks [[], [], [], [], []] (encodeBlocks 0 s.peaksByBand) =
      .ok s.peaksByBand := by
    rw [parseBlocks]
    have := parseBlocksF_encodeBlocks s.peaksByBand 0 []
      ((encodeBlocks 0 s.peaksByBand).length + 1) (by simpa using hlen5) rfl hall
      (le_refl _) (by omega)
    simpa [List.replicate] using this
  rw [encode_eq]
  simp only [List.append_assoc]
  simp only [decode, next_le32n, hC']
  norm_num
  simp only [encodeTail, List.append_assoc, next_le32n, hLmod, htk, hsh, hsh2, hkr,
    List.length_append, le32n_length, hns, hnscast, hPB]
  norm_num [hPB]
  split
  · exfalso
    omega
  split
  · conv_rhs => rw [show s = ⟨s.sampleRate, s.numSamples, s.peaksByBand⟩ from rfl]
    simp only [Except.ok.injEq, Signature.mk.injEq, and_true, true_and]
    have := toU32_lt s.numSamples
    omega
  · exfalso
    omega

/-! ## Claim C1: codec round trip -/

/-- A signature that meets every validity condition C1 states
(`claimValidSig`) but whose `numSamples` fills more than 32 bits. -/
def bigSig : Signature := ⟨16000, 4294967296, [[], [], [], [], []]⟩

set_option maxRecDepth 8000 in
/-- C1 (counterexample): the round trip fails as literally stated.
`bigSig` satisfies all of C1's validity conditions (supported rate,
`numSamples ≥ 0`, well-formed peak bands), yet decoding its encoding
yields `numSamples = 0`, not `2^32`: the `uint32` sample-count field
truncates. -/
theorem C1_roundtrip_counterexample :
    claimValidSig bigSig = true ∧
      decode (encode bigSig) = .ok ⟨16000, 0, [[], [], [], [], []]⟩ ∧
      decode (encode bigSig) ≠ .ok bigSig := by
  refine ⟨by decide, by decide, ?_⟩
  intro h
  rw [show decode (encode bigSig) = .ok ⟨16000, 0, [[], [], [], [], []]⟩ from by decide] at h
  simp [bigSig, Signature.mk.injEq] at h

/-- C1 (amended): for every valid signature --- sample rate in
{8000, 11025, 16000, 32000, 44100}, `0 ≤ numSamples < 2^32` (the encoded
field is a `uint32`), five bands of peaks in non-decreasing pass order
with `pass < 2^32` and `magnitude, bin < 2^16`, and an encoded payload
shorter than `2^32 - 8` bytes (the length fields are `uint32`) ---
`decode (encode s)` succeeds and returns `s` itself: equal sample rate,
sample count, and per-band peak sequences. -/
theorem C1_roundtrip (s : Signature) (hv : validSig s = true)
    (hsz : (encodeBlocks 0 s.peaksByBand).length + 8 < 4294967296) :
    decode (encode s) = .ok s :=
  decode_encode s hv hsz

set_option maxRecDepth 8000 in
/-- Witness for C1: a concrete valid signature with peaks in several
bands, including a pass jump that exercises the 0xFF escape, round
trips. -/
theorem C1_roundtrip_witness :
    validSig ⟨44100, 999, [[⟨3, 1, 2⟩, ⟨300, 65535, 7⟩], [], [⟨0, 5, 6⟩], [], [⟨256, 1, 1⟩]]⟩ = true ∧
      decode (encode ⟨44100, 999, [[⟨3, 1, 2⟩, ⟨300, 65535, 7⟩], [], [⟨0, 5, 6⟩], [], [⟨256, 1, 1⟩]]⟩) =
        .ok ⟨44100, 999, [[⟨3, 1, 2⟩, ⟨300, 65535, 7⟩], [], [⟨0, 5, 6⟩], [], [⟨256, 1, 1⟩]]⟩ :=
  ⟨by decide, C1_roundtrip _ (by decide) (by decide)⟩

/-! ## Claim C3: decode failure modes -/

theorem decode_badMagic1 (w : Nat) (rest : List Nat) (hw : w < 4294967296)
    (hne : w ≠ 0xcafe2580) :
    decode (le32n w ++ rest) = .error .badMagic1 := by
  simp only [decode, next_le32n, Nat.mod_eq_of_lt hw]
  rw [if_pos hne]

theorem decode_badChecksum (c : Nat) (rest : List Nat) (hc : c < 4294967296)
    (hne : c ≠ crc32 rest) :
    decode (le32n 0xcafe2580 ++ (le32n c ++ rest)) = .error .badChecksum := by
  simp only [decode, next_le32n, Nat.mod_eq_of_lt hc]
  norm_num
  intro h
  exact absurd h hne

theorem bytes_lt_32 {l : List Nat} (hb : ∀ b ∈ l, b < 256) : ∀ b ∈ l, b < 4294967296 :=
  fun b h => lt_trans (hb b h) (by norm_num)

theorem crc32_le32n_append_lt (w : Nat) (rest : List Nat) (hb : ∀ b ∈ rest, b < 256) :
    crc32 (le32n w ++ rest) < 4294967296 := by
  refine crc32_lt _ fun b h => ?_
  rcases List.mem_append.mp h with h | h
  · exact lt_trans (mem_le32n h) (by norm_num)
  · exact lt_trans (hb b h) (by norm_num)

theorem decode_badLength (l : Nat) (rest : List Nat) (hl : l < 4294967296)
    (hrest : 36 ≤ rest.length) (hb : ∀ b ∈ rest, b < 256)
    (hne : l ≠ (rest.length - 36) % 4294967296) :
    decode (le32n 0xcafe2580 ++ (le32n (crc32 (le32n l ++ rest)) ++ (le32n l ++ rest))) =
      .error .badLength := by
  have hcb := crc32_le32n_append_lt l rest hb
  simp only [decode, next_le32n, Nat.mod_eq_of_lt hcb, Nat.mod_eq_of_lt hl]
  norm_num
  rw [if_neg (by omega), if_neg (by exact fun h => hne h)]

/-- A well-formed 56-byte-header buffer tail: correct `length1` for
payload `pl`, then the remaining eleven header words (`w4` the second
magic slot, `w8` the rate word, `w11` the sample-count word, `w12`,
`w13` the third and fourth magic slots, `w14` the second length slot),
then the payload. -/
def hdr14 (w4 w8 w11 w12 w13 w14 : Nat) (pl : List Nat) : List Nat :=
  le32n ((pl.length + 8) % 4294967296) ++ (le32n w4 ++ (le32n 0 ++ (le32n 0 ++ (le32n 0 ++
    (le32n w8 ++ (le32n 0 ++ (le32n 0 ++ (le32n w11 ++ (le32n w12 ++
    (le32n w13 ++ (le32n w14 ++ pl)))))))))))

/-- A buffer with valid first magic and a correct stored checksum over
`hdr14 ...`. -/
def mkBuf (w4 w8 w11 w12 w13 w14 : Nat) (pl : List Nat) : List Nat :=
  le32n 0xcafe2580 ++ (le32n (crc32 (hdr14 w4 w8 w11 w12 w13 w14 pl)) ++
    hdr14 w4 w8 w11 w12 w13 w14 pl)

theorem mem_hdr14 {b w4 w8 w11 w12 w13 w14 : Nat} {pl : List Nat}
    (hb : ∀ x ∈ pl, x < 256) (h : b ∈ hdr14 w4 w8 w11 w12 w13 w14 pl) : b < 256 := by
  simp only [hdr14, List.mem_append] at h
  rcases h with h | h | h | h | h | h | h | h | h | h | h | h | h
  all_goals first
    | exact mem_le32n h
    | exact hb _ h

theorem crc32_hdr14_lt (w4 w8 w11 w12 w13 w14 : Nat) (pl : List Nat)
    (hb : ∀ x ∈ pl, x < 256) :
    crc32 (hdr14 w4 w8 w11 w12 w13 w14 pl) < 4294967296 :=
  crc32_lt _ fun b h => lt_trans (mem_hdr14 hb h) (by norm_num)

theorem decode_badMagic2 (w4 w8 w11 w12 w13 w14 : Nat) (pl : List Nat)
    (h4 : w4 < 4294967296) (hb : ∀ x ∈ pl, x < 256) (hne : w4 ≠ 0x94119c00) :
    decode (mkBuf w4 w8 w11 w12 w13 w14 pl) = .error .badMagic2 := by
  have hcb := crc32_hdr14_lt w4 w8 w11 w12 w13 w14 pl hb
  simp only [mkBuf, decode, next_le32n, Nat.mod_eq_of_lt hcb]
  norm_num
  simp only [hdr14, next_le32n, Nat.mod_eq_of_lt h4, List.length_append, le32n_length]
  rw [if_neg (by omega), if_pos (by omega), if_neg hne]

theorem decode_badMagic3 (w8 w11 w12 w13 w14 : Nat) (pl : List Nat)
    (h12 : w12 < 4294967296) (hb : ∀ x ∈ pl, x < 256) (hne : w12 ≠ 0x007c0000) :
    decode (mkBuf 0x94119c00 w8 w11 w12 w13 w14 pl) = .error .badMagic3 := by
  have hcb := crc32_hdr14_lt 0x94119c00 w8 w11 w12 w13 w14 pl hb
  simp only [mkBuf, decode, next_le32n, Nat.mod_eq_of_lt hcb]
  norm_num
  simp only [hdr14, next_le32n, Nat.mod_eq_of_lt h12, List.length_append, le32n_length]
  norm_num
  rw [if_neg (by omega), if_pos (by omega), if_neg hne]

theorem decode_badMagic4 (w8 w11 w13 w14 : Nat) (pl : List Nat)
    (h13 : w13 < 4294967296) (hb : ∀ x ∈ pl, x < 256) (hne : w13 ≠ 0x40000000) :
    decode (mkBuf 0x94119c00 w8 w11 0x007c0000 w13 w14 pl) = .error .badMagic4 := by
  have hcb := crc32_hdr14_lt 0x94119c00 w8 w11 0x007c0000 w13 w14 pl hb
  simp only [mkBuf, decode, next_le32n, Nat.mod_eq_of_lt hcb]
  norm_num
  simp only [hdr14, next_le32n, Nat.mod_eq_of_lt h13, List.length_append, le32n_length]
  norm_num
  rw [if_neg (by omega), if_pos (by omega), if_neg hne]

theorem decode_badLength2 (w8 w11 w14 : Nat) (pl : List Nat)
    (h14 : w14 < 4294967296) (hb : ∀ x ∈ pl, x < 256)
    (hne : w14 ≠ (pl.length % 4294967296 + 8) % 4294967296) :
    decode (mkBuf 0x94119c00 w8 w11 0x007c0000 0x40000000 w14 pl) = .error .badLength2 := by
  have hcb := crc32_hdr14_lt 0x94119c00 w8 w11 0x007c0000 0x40000000 w14 pl hb
  simp only [mkBuf, decode, next_le32n, Nat.mod_eq_of_lt hcb]
  norm_num
  simp only [hdr14, next_le32n, Nat.mod_eq_of_lt h14, List.length_append, le32n_length]
  norm_num
  rw [if_neg (by omega), if_pos (by omega), if_neg (by omega)]

/-- With all four magics, both lengths and the checksum right, `decode`
accepts ANY rate word: an unknown rate code never produces an error (the
sample rate silently becomes 0). -/
theorem decode_any_rate (w8 w11 : Nat) (h8 : w8 < 4294967296) (h11 : w11 < 4294967296) :
    decode (mkBuf 0x94119c00 w8 w11 0x007c0000 0x40000000 8 []) =
      .ok ⟨convertSampleRate ((w8 >>> 27 : Nat) : Int),
        (((w11 + 4294967296 - rateOff (convertSampleRate ((w8 >>> 27 : Nat) : Int))) %
          4294967296 : Nat) : Int),
        [[], [], [], [], []]⟩ := by
  have hcb := crc32_hdr14_lt 0x94119c00 w8 w11 0x007c0000 0x40000000 8 []
    (by intro x hx; simp at hx)
  simp only [mkBuf, decode, next_le32n, Nat.mod_eq_of_lt hcb]
  norm_num
  simp only [hdr14, next_le32n, Nat.mod_eq_of_lt h8, Nat.mod_eq_of_lt h11,
    List.length_append, le32n_length]
  norm_num
  simp [parseBlocks, parseBlocksF]

/-- A checksum-correct buffer whose single payload block carries tag
`0x60030045` (one past the last valid band tag) and an empty stream. -/
def badBandBuf : List Nat :=
  mkBuf 0x94119c00 (3 <<< 27) 77 0x007c0000 0x40000000 16 (le32n 0x60030045 ++ le32n 0)

/-- A checksum-correct buffer whose single payload block carries tag
`0x60030045` and a five-byte stream decoding one peak entry. -/
def badBandPeakBuf : List Nat :=
  mkBuf 0x94119c00 (3 <<< 27) 77 0x007c0000 0x40000000 24
    (le32n 0x60030045 ++ (le32n 5 ++ [0, 1, 0, 2, 0, 0, 0, 0]))

/-- A fully valid encoding whose header rate code is 0 (not one of the
five supported codes): `encode` of a signature with `sampleRate = 0`. -/
def rate0Buf : List Nat := encode ⟨0, 77, [[], [], [], [], []]⟩

/-- The payload loop never evaluates the band index of a block whose
stream decodes no peak entry: a size-0 block with ANY tag word — in
particular one whose band index is out of range — is silently skipped. -/
theorem parseBlocks_band_skip (fuel tagw : Nat) (bands : List (List FrequencyPeak)) :
    parseBlocksF (fuel + 1) bands (le32n tagw ++ le32n 0) = .ok bands := by
  simp only [le32n, List.cons_append, List.nil_append]
  simp only [parseBlocksF]
  rw [if_pos (by norm_num), if_pos (by norm_num), if_pos (by simp [parseStream])]
  rw [List.drop_nil]
  cases fuel <;> rfl

/-- Once a block decodes a peak entry, an out-of-range band index is an
array-index panic (modelled `.panic`), for every such tag word. -/
theorem parseBlocks_band_panic (fuel tagw : Nat) (bands : List (List FrequencyPeak))
    (hband : 5 ≤ (tagw % 4294967296 + 4294967296 - 0x60030040) % 4294967296) :
    parseBlocksF (fuel + 1) bands (le32n tagw ++ (le32n 5 ++ [0, 1, 0, 2, 0, 0, 0, 0])) =
      .error .panic := by
  simp only [le32n, List.cons_append, List.nil_append]
  simp only [parseBlocksF]
  rw [if_pos (by norm_num), if_pos (by norm_num), if_neg (by simp [parseStream]),
      if_neg (by omega)]

set_option maxRecDepth 8000 in
/-- C3 (counterexample): the claimed `BadRate` and `BadBand` failure
modes do not exist.  `rate0Buf` has rate code 0 in its header (bytes
28..32 are zero), which is not in {1,2,3,4,5}, yet `decode` returns
success (with `sampleRate = 0`) instead of a `BadRate` error; and
`badBandBuf` carries the payload tag `0x60030045`, outside
`[0x60030040, 0x60030044]` (its bytes sit at offsets 56..60), yet
`decode` also returns success — the block's empty stream never
evaluates the band index, so no `BadBand` error (nor any error)
occurs. -/
theorem C3_failure_modes_counterexample :
    ((rate0Buf.drop 28).take 4 = [0, 0, 0, 0] ∧
      decode rate0Buf = .ok ⟨0, 77, [[], [], [], [], []]⟩ ∧
      ∀ e, decode rate0Buf ≠ .error e) ∧
    ((badBandBuf.drop 56).take 4 = [0x45, 0x00, 0x03, 0x60] ∧
      decode badBandBuf = .ok ⟨16000, 4294963533, [[], [], [], [], []]⟩ ∧
      ∀ e, decode badBandBuf ≠ .error e) := by
  refine ⟨⟨by decide, by decide, ?_⟩, ⟨by decide, by decide, ?_⟩⟩
  · intro e h
    rw [show decode rate0Buf = .ok ⟨0, 77, [[], [], [], [], []]⟩ from by decide] at h
    exact Except.noConfusion h
  · intro e h
    rw [show decode badBandBuf = .ok ⟨16000, 4294963533, [[], [], [], [], []]⟩
      from by decide] at h
    exact Except.noConfusion h

set_option maxRecDepth 8000 in
/-- C3 (amended): `decode`'s failure modes over whole buffers.  Wrong
magic words give `bad magic1/2/3/4`; a checksum mismatch gives
`bad checksum` (checked right after magic1); `length1` must equal the
length of the buffer from offset 48 (payload plus 8 — not the bare
payload length) or `bad length` results; `length2` must equal the same
value or `bad length2` results; an unrecognised rate code is NOT an
error (the sample rate becomes 0 and decoding succeeds); and a payload
tag outside `[0x60030040, 0x60030044]` is not an error return either:
the band index is only evaluated when a peak entry is appended, so a
block whose stream decodes no entry is silently skipped (`badBandBuf`
decodes successfully), while a block that decodes an entry is an
index-out-of-range panic (`badBandPeakBuf`, and the general
`parseBlocks_band_skip`/`parseBlocks_band_panic` shapes over the
payload loop). -/
theorem C3_failure_modes :
    (∀ w rest, w < 4294967296 → w ≠ 0xcafe2580 →
      decode (le32n w ++ rest) = .error .badMagic1) ∧
    (∀ c rest, c < 4294967296 → c ≠ crc32 rest →
      decode (le32n 0xcafe2580 ++ (le32n c ++ rest)) = .error .badChecksum) ∧
    (∀ l rest, l < 4294967296 → 36 ≤ rest.length → (∀ b ∈ rest, b < 256) →
      l ≠ (rest.length - 36) % 4294967296 →
      decode (le32n 0xcafe2580 ++ (le32n (crc32 (le32n l ++ rest)) ++ (le32n l ++ rest))) =
        .error .badLength) ∧
    (∀ w4 w8 w11 w12 w13 w14 pl, w4 < 4294967296 → (∀ x ∈ pl, x < 256) →
      w4 ≠ 0x94119c00 → decode (mkBuf w4 w8 w11 w12 w13 w14 pl) = .error .badMagic2) ∧
    (∀ w8 w11 w12 w13 w14 pl, w12 < 4294967296 → (∀ x ∈ pl, x < 256) →
      w12 ≠ 0x007c0000 → decode (mkBuf 0x94119c00 w8 w11 w12 w13 w14 pl) = .error .badMagic3) ∧
    (∀ w8 w11 w13 w14 pl, w13 < 4294967296 → (∀ x ∈ pl, x < 256) →
      w13 ≠ 0x40000000 →
      decode (mkBuf 0x94119c00 w8 w11 0x007c0000 w13 w14 pl) = .error .badMagic4) ∧
    (∀ w8 w11 w14 pl, w14 < 4294967296 → (∀ x ∈ pl, x < 256) →
      w14 ≠ (pl.length % 4294967296 + 8) % 4294967296 →
      decode (mkBuf 0x94119c00 w8 w11 0x007c0000 0x40000000 w14 pl) = .error .badLength2) ∧
    (∀ w8 w11, w8 < 4294967296 → w11 < 4294967296 →
      decode (mkBuf 0x94119c00 w8 w11 0x007c0000 0x40000000 8 []) =
        .ok ⟨convertSampleRate ((w8 >>> 27 : Nat) : Int),
          (((w11 + 4294967296 - rateOff (convertSampleRate ((w8 >>> 27 : Nat) : Int))) %
            4294967296 : Nat) : Int), [[], [], [], [], []]⟩) ∧
    (∀ fuel tagw bands, parseBlocksF (fuel + 1) bands (le32n tagw ++ le32n 0) = .ok bands) ∧
    (∀ fuel tagw bands, 5 ≤ (tagw % 4294967296 + 4294967296 - 0x60030040) % 4294967296 →
      parseBlocksF (fuel + 1) bands (le32n tagw ++ (le32n 5 ++ [0, 1, 0, 2, 0, 0, 0, 0])) =
        .error .panic) ∧
    decode badBandBuf = .ok ⟨16000, 4294963533, [[], [], [], [], []]⟩ ∧
    decode badBandPeakBuf = .error .panic :=
  ⟨fun w rest hw hne => decode_badMagic1 w rest hw hne,
   fun c rest hc hne => decode_badChecksum c rest hc hne,
   fun l rest hl hr hb hne => decode_badLength l rest hl hr hb hne,
   fun w4 w8 w11 w12 w13 w14 pl h4 hb hne => decode_badMagic2 w4 w8 w11 w12 w13 w14 pl h4 hb hne,
   fun w8 w11 w12 w13 w14 pl h12 hb hne => decode_badMagic3 w8 w11 w12 w13 w14 pl h12 hb hne,
   fun w8 w11 w13 w14 pl h13 hb hne => decode_badMagic4 w8 w11 w13 w14 pl h13 hb hne,
   fun w8 w11 w14 pl h14 hb hne => decode_badLength2 w8 w11 w14 pl h14 hb hne,
   fun w8 w11 h8 h11 => decode_any_rate w8 w11 h8 h11,
   fun fuel tagw bands => parseBlocks_band_skip fuel tagw bands,
   fun fuel tagw bands hband => parseBlocks_band_panic fuel tagw bands hband,
   by decide, by decide⟩

set_option maxRecDepth 8000 in
/-- Witness for C3: the failure modes evaluated at concrete buffers,
including a skipped and a panicking out-of-range band block. -/
theorem C3_failure_modes_witness :
    decode (le32n 7 ++ [1, 2, 3]) = .error .badMagic1 ∧
    decode (le32n 0xcafe2580 ++ (le32n 5 ++ [9])) = .error .badChecksum ∧
    decode (mkBuf 1 2 3 4 5 6 []) = .error .badMagic2 ∧
    decode (mkBuf 0x94119c00 0 77 0x007c0000 0x40000000 9 []) = .error .badLength2 ∧
    parseBlocksF 3 [[], [], [], [], []] (le32n 0x60030045 ++ le32n 0) =
      .ok [[], [], [], [], []] ∧
    parseBlocksF 3 [[], [], [], [], []]
      (le32n 0x60030045 ++ (le32n 5 ++ [0, 1, 0, 2, 0, 0, 0, 0])) = .error .panic :=
  ⟨C3_failure_modes.1 7 [1, 2, 3] (by norm_num) (by norm_num),
   C3_failure_modes.2.1 5 [9] (by norm_num) (by decide),
   C3_failure_modes.2.2.2.1 1 2 3 4 5 6 [] (by norm_num) (by simp) (by norm_num),
   C3_failure_modes.2.2.2.2.2.2.1 0 77 9 [] (by norm_num) (by simp) (by decide),
   C3_failure_modes.2.2.2.2.2.2.2.2.1 2 0x60030045 [[], [], [], [], []],
   C3_failure_modes.2.2.2.2.2.2.2.2.2.1 2 0x60030045 [[], [], [], [], []] (by norm_num)⟩

/-! ## Claim C6: CRC sensitivity to single-bit flips -/

/-- Flip bit `j` of byte `i` in a buffer. -/
def flipBit (l : List Nat) (i j : Nat) : List Nat :=
  l.set i (l.getD i 0 ^^^ 2 ^ j)

theorem xor_poly_ge {x : Nat} (hx : x < 2147483648) : 2147483648 ≤ x ^^^ 0xEDB88320 := by
  have hbit : (x ^^^ 0xEDB88320).testBit 31 = true := by
    rw [Nat.testBit_xor, Nat.testBit_lt_two_pow (by norm_num at hx ⊢; omega)]
    decide
  have := Nat.testBit_implies_ge hbit
  norm_num at this ⊢
  omega

theorem crcStep_inj {a b : Nat} (ha : a < 4294967296) (hb : b < 4294967296)
    (h : crcStep a = crcStep b) : a = b := by
  rw [crcStep, crcStep] at h
  rcases Nat.eq_zero_or_pos (a % 2) with pa | pa <;>
    rcases Nat.eq_zero_or_pos (b % 2) with pb | pb
  · rw [if_neg (by omega), if_neg (by omega)] at h
    omega
  · rw [if_neg (by omega), if_pos (by omega)] at h
    have := xor_poly_ge (x := b / 2) (by omega)
    omega
  · rw [if_pos (by omega), if_neg (by omega)] at h
    have := xor_poly_ge (x := a / 2) (by omega)
    omega
  · rw [if_pos (by omega), if_pos (by omega)] at h
    have := Nat.xor_left_injective (n := 0xEDB88320) h
    simp only at this
    omega

theorem crcStep_iter_inj : ∀ (n : Nat) {a b : Nat}, a < 4294967296 → b < 4294967296 →
    crcStep^[n] a = crcStep^[n] b → a = b := by
  intro n
  induction n with
  | zero => intro a b _ _ h; simpa using h
  | succ n ih =>
    intro a b ha hb h
    rw [Function.iterate_succ_apply, Function.iterate_succ_apply] at h
    exact crcStep_inj ha hb (ih (crcStep_lt ha) (crcStep_lt hb) h)

theorem crcByte_inj_state {c c' b : Nat} (hc : c < 4294967296) (hc' : c' < 4294967296)
    (hb : b < 4294967296) (h : crcByte c b = crcByte c' b) : c = c' := by
  have h32 : (4294967296 : Nat) = 2 ^ 32 := by norm_num
  rw [crcByte, crcByte] at h
  have := crcStep_iter_inj 8 (by rw [h32] at hc hb ⊢; exact Nat.xor_lt_two_pow hc hb)
    (by rw [h32] at hc' hb ⊢; exact Nat.xor_lt_two_pow hc' hb) h
  exact Nat.xor_left_injective this

theorem crcByte_inj_byte {c b b' : Nat} (hc : c < 4294967296) (hb : b < 4294967296)
    (hb' : b' < 4294967296) (h : crcByte c b = crcByte c b') : b = b' := by
  have h32 : (4294967296 : Nat) = 2 ^ 32 := by norm_num
  rw [crcByte, crcByte] at h
  have := crcStep_iter_inj 8 (by rw [h32] at hc hb ⊢; exact Nat.xor_lt_two_pow hc hb)
    (by rw [h32] at hc hb' ⊢; exact Nat.xor_lt_two_pow hc hb') h
  exact Nat.xor_right_injective this

theorem crcLoop_inj : ∀ (l : List Nat) {c c' : Nat}, c < 4294967296 → c' < 4294967296 →
    (∀ b ∈ l, b < 4294967296) → c ≠ c' → crcLoop c l ≠ crcLoop c' l := by
  intro l
  induction l with
  | nil => intro c c' _ _ _ hne; simpa [crcLoop] using hne
  | cons b l ih =>
    intro c c' hc hc' hb hne
    rw [crcLoop, crcLoop, strict_apply, strict_apply]
    have hb0 : b < 4294967296 := hb b (by simp)
    exact ih (crcByte_lt hc hb0) (crcByte_lt hc' hb0)
      (fun x hx => hb x (by simp [hx]))
      (fun h => hne (crcByte_inj_state hc hc' hb0 h))

theorem crcLoop_append (c : Nat) (l₁ l₂ : List Nat) :
    crcLoop c (l₁ ++ l₂) = crcLoop (crcLoop c l₁) l₂ := by
  induction l₁ generalizing c with
  | nil => rfl
  | cons b l ih => rw [List.cons_append, crcLoop, crcLoop, strict_apply, strict_apply, ih]

/-- Flipping any single bit of any byte changes the CRC-32. -/
theorem crc32_flipBit_ne (l : List Nat) (i j : Nat) (hi : i < l.length) (hj : j < 8)
    (hb : ∀ b ∈ l, b < 256) : crc32 (flipBit l i j) ≠ crc32 l := by
  have hd : l.getD i 0 = l[i] := by
    rw [List.getD_eq_getElem?_getD, List.getElem?_eq_getElem hi]
    rfl
  have hsplit : l = l.take i ++ l.getD i 0 :: l.drop (i + 1) := by
    rw [hd]
    conv_lhs => rw [← List.take_append_drop i l]
    congr 1
    exact List.drop_eq_getElem_cons hi
  have hlen : (l.take i).length = i := by rw [List.length_take]; omega
  have hflip : flipBit l i j = l.take i ++ (l.getD i 0 ^^^ 2 ^ j) :: l.drop (i + 1) := by
    rw [flipBit]
    nth_rewrite 1 [hsplit]
    rw [List.set_append_right _ _ (by omega), hlen, Nat.sub_self, List.set_cons_zero]
  have hbi : l.getD i 0 < 256 := by
    rw [hd]
    exact hb _ (List.getElem_mem hi)
  have hbytes32 : ∀ x ∈ l, x < 4294967296 := bytes_lt_32 hb
  have hfliplt : l.getD i 0 ^^^ 2 ^ j < 4294967296 := by
    have : l.getD i 0 ^^^ 2 ^ j < 2 ^ 8 :=
      Nat.xor_lt_two_pow (by norm_num at hbi ⊢; omega)
        (Nat.pow_lt_pow_right (by norm_num) hj)
    norm_num at this ⊢
    omega
  have hpre : crcLoop 0xFFFFFFFF (l.take i) < 4294967296 :=
    crcLoop_lt _ _ (by norm_num) fun x hx => hbytes32 x (List.take_subset i l hx)
  have hsuf : ∀ x ∈ l.drop (i + 1), x < 4294967296 :=
    fun x hx => hbytes32 x (List.drop_subset _ _ hx)
  rw [crc32, crc32, hflip]
  conv_rhs => rw [hsplit]
  rw [crcLoop_append, crcLoop_append]
  intro h
  have h2 := Nat.xor_left_injective h
  rw [crcLoop, crcLoop, strict_apply, strict_apply] at h2
  by_cases heq : crcByte (crcLoop 0xFFFFFFFF (l.take i)) (l.getD i 0 ^^^ 2 ^ j) =
      crcByte (crcLoop 0xFFFFFFFF (l.take i)) (l.getD i 0)
  · have hbytes := crcByte_inj_byte hpre hfliplt (by omega) heq
    have h20 : l.getD i 0 ^^^ 2 ^ j = l.getD i 0 ^^^ 0 := by
      rw [Nat.xor_zero]
      exact hbytes
    have := Nat.xor_right_injective h20
    exact absurd this.symm (Nat.pos_iff_ne_zero.mp (Nat.pos_pow_of_pos j (by norm_num))).symm
  · exact absurd h2 (crcLoop_inj _ (crcByte_lt hpre hfliplt) (crcByte_lt hpre (by omega)) hsuf heq)

/-- C6: flipping any single bit of `encode s` at or after byte offset 8
makes `decode` fail with `bad checksum` (the checksum is verified right
after the first magic word, before any later field is interpreted).
Bit position `p` counts from the start of the buffer; bytes 0..7 (magic
and the stored checksum itself) are excluded, exactly as the claim
states. -/
theorem C6_crc_bitflip (s : Signature) (_hv : validSig s = true) (p : Nat)
    (hp : 64 ≤ p) (hpl : p < 8 * (encode s).length) :
    decode (flipBit (encode s) (p / 8) (p % 8)) = .error .badChecksum := by
  have hC : crc32 (encodeTail s) < 4294967296 :=
    crc32_lt _ fun b hb => lt_trans (mem_encodeTail hb) (by norm_num)
  have hA : (le32n 0xcafe2580 ++ le32n (crc32 (encodeTail s))).length = 8 := by simp [le32n]
  have hlen : (encode s).length = 8 + (encodeTail s).length := by
    rw [encode_eq,
      show le32n 0xcafe2580 ++ le32n (crc32 (encodeTail s)) ++ encodeTail s
        = (le32n 0xcafe2580 ++ le32n (crc32 (encodeTail s))) ++ encodeTail s from rfl,
      List.length_append, hA]
  have hit : p / 8 - 8 < (encodeTail s).length := by omega
  have hj : p % 8 < 8 := by omega
  have hgetd : (encode s).getD (p / 8) 0 = (encodeTail s).getD (p / 8 - 8) 0 := by
    rw [encode_eq, List.getD_eq_getElem?_getD, List.getD_eq_getElem?_getD,
      show le32n 0xcafe2580 ++ le32n (crc32 (encodeTail s)) ++ encodeTail s
        = (le32n 0xcafe2580 ++ le32n (crc32 (encodeTail s))) ++ encodeTail s from rfl,
      List.getElem?_append_right (by rw [hA]; omega), hA]
  have hstep : flipBit (encode s) (p / 8) (p % 8) =
      le32n 0xcafe2580 ++ (le32n (crc32 (encodeTail s)) ++
        flipBit (encodeTail s) (p / 8 - 8) (p % 8)) := by
    rw [flipBit, flipBit, hgetd, encode_eq,
      List.set_append_right _ _ (by rw [hA]; omega), hA, List.append_assoc]
  rw [hstep]
  refine decode_badChecksum _ _ hC ?_
  exact Ne.symm (crc32_flipBit_ne (encodeTail s) _ _ hit hj fun b hb => mem_encodeTail hb)

set_option maxRecDepth 8000 in
/-- Witness for C6: flipping bit 64 (bit 0 of the `length1` byte at
offset 8) of a concrete valid signature's encoding yields
`bad checksum`. -/
theorem C6_crc_bitflip_witness :
    validSig ⟨16000, 128, [[], [], [], [], []]⟩ = true ∧
      64 < 8 * (encode ⟨16000, 128, [[], [], [], [], []]⟩).length ∧
      decode (flipBit (encode ⟨16000, 128, [[], [], [], [], []]⟩) 8 0) = .error .badChecksum := by
  refine ⟨by decide, by decide, ?_⟩
  have h := C6_crc_bitflip ⟨16000, 128, [[], [], [], [], []]⟩ (by decide) 64 (by norm_num)
    (by decide)
  norm_num at h
  exact h

/-! ## The search driver (`audio.go`: `trackIdentifier`) -/

/-- `shazam.Result` (the fields the driver reads). -/
structure ShazamResult where
  found : Bool
  skew : Rat
  artist : String
  title : String
  album : String
  year : String
  appleID : String
deriving DecidableEq, Repr

/-- `identifyParams`: a probe's speed ratio and start offset.  The ratio
is a `float64` in Go, but the driver only compares ratios of probes
drawn from the fixed 15-literal table for equality, which exact
rationals model faithfully; the offset (a `time.Duration`) is kept in
seconds. -/
structure IdentifyParams where
  ratio : Rat
  offset : Nat
deriving DecidableEq, Repr

/-- `identifyResult`. -/
structure IdentifyResult where
  params : IdentifyParams
  res : ShazamResult
  skew : Rat
deriving DecidableEq, Repr

/-- `trackIdentifier`. -/
structure TrackIdentifier where
  path : String
  params : List IdentifyParams
  results : List IdentifyResult
  sample : Option IdentifyResult
deriving DecidableEq, Repr

/-- The fixed speed-ratio table of `newTrackIdentifier`. -/
def speedups : List Rat :=
  [mkRat 12 10, mkRat 13 10, mkRat 11 10, mkRat 125 100, mkRat 115 100,
   mkRat 14 10, mkRat 15 10, mkRat 9 10, mkRat 8 10, mkRat 16 10,
   mkRat 17 10, mkRat 18 10, mkRat 19 10, 2, 1]

/-- The fixed offset table (seconds). -/
def offsets : List Nat := [24, 48, 72]

/-- `newTrackIdentifier`: the 45-probe queue, outer loop over ratios,
inner loop over offsets. -/
def newTrackIdentifier (path : String) : TrackIdentifier :=
  { path := path
    params := (speedups.map fun r => offsets.map fun o => IdentifyParams.mk r o).flatten
    results := []
    sample := none }

/-- `currentParams` reads `id.params[0]`; `none` models the Go index
panic on an empty queue (never reached by the program). -/
def currentParams (id : TrackIdentifier) : Option IdentifyParams :=
  id.params.head?

/-- The not-found skip loop of `handleResult`:
`for len(id.params) > 2 && id.params[1].ratio == r.params.ratio`. -/
def skipSameRatio : List IdentifyParams → Rat → List IdentifyParams
  | p0 :: p1 :: p2 :: rest, r =>
    if p1.ratio = r then skipSameRatio (p1 :: p2 :: rest) r else p0 :: p1 :: p2 :: rest
  | ps, _ => ps

/-- The common tail of `handleResult`: if one probe remains, stop;
otherwise pop the head and return the new head. -/
def finishStep (id : TrackIdentifier) : TrackIdentifier × Option IdentifyParams :=
  if id.params.length = 1 then (id, none)
  else ({ id with params := id.params.tail }, id.params.tail.head?)

/-- `trackIdentifier.handleResult`.  On a not-found result the rest of
the current ratio's probes are skipped (while more than two remain); on
a found result it is logged, and if three logged results share its
(artist, title) the sample is chosen and the search ends. -/
def handleResult (id : TrackIdentifier) (r : IdentifyResult) : TrackIdentifier × Option IdentifyParams :=
  if r.res.found = false then
    finishStep { id with params := skipSameRatio id.params r.params.ratio }
  else
    let results' := id.results ++ [r]
    let hits := results'.countP fun res =>
      res.res.artist = r.res.artist && res.res.title = r.res.title
    if hits = 3 then
      ({ id with results := results', sample := some r }, none)
    else
      finishStep { id with results := results' }

/-- The number of `handleResult` calls a result sequence drives before
the driver stops (it stops as soon as a call returns no next probe). -/
def runCount : TrackIdentifier → List IdentifyResult → Nat
  | _, [] => 0
  | st, r :: rs =>
    match handleResult st r with
    | (_, none) => 1
    | (st', some _) => 1 + runCount st' rs

/-! ## Driver lemmas -/

theorem finishStep_sample (id : TrackIdentifier) : (finishStep id).1.sample = id.sample := by
  rw [finishStep]
  split <;> rfl

theorem skipSameRatio_length : ∀ (ps : List IdentifyParams) (r : Rat),
    (skipSameRatio ps r).length ≤ ps.length ∧ (ps ≠ [] → skipSameRatio ps r ≠ []) := by
  intro ps r
  induction ps with
  | nil => simp [skipSameRatio]
  | cons p0 tl ih =>
    rcases tl with _ | ⟨p1, tl2⟩
    · simp [skipSameRatio]
    rcases tl2 with _ | ⟨p2, rest⟩
    · simp [skipSameRatio]
    rw [skipSameRatio]
    by_cases hr : p1.ratio = r
    · rw [if_pos hr]
      refine ⟨le_trans ih.1 (by simp), fun _ => ih.2 (by simp)⟩
    · rw [if_neg hr]
      exact ⟨le_refl _, fun _ => by simp⟩

/-- If the queue tail (apart from its final element) contains a probe at
a different ratio, the skip loop stops with such a probe in second
position. -/
theorem skipSameRatio_spec : ∀ (ps : List IdentifyParams) (r : Rat),
    (∃ q ∈ ps.tail.dropLast, q.ratio ≠ r) →
    ∃ a b rest, skipSameRatio ps r = a :: b :: rest ∧ b.ratio ≠ r := by
  intro ps
  induction ps with
  | nil => intro r h; simp at h
  | cons p0 tl ih =>
    intro r h
    rcases tl with _ | ⟨p1, tl2⟩
    · simp at h
    rcases tl2 with _ | ⟨p2, rest⟩
    · simp at h
    rw [skipSameRatio]
    by_cases hr : p1.ratio = r
    · rw [if_pos hr]
      apply ih
      obtain ⟨q, hq, hqr⟩ := h
      simp only [List.tail_cons, List.dropLast_cons₂, List.mem_cons] at hq
      rcases hq with rfl | hq
      · exact absurd hr hqr
      · exact ⟨q, by simpa using hq, hqr⟩
    · rw [if_neg hr]
      exact ⟨p0, p1, p2 :: rest, rfl, hr⟩

theorem handleResult_step (st : TrackIdentifier) (r : IdentifyResult) (h : st.params ≠ []) :
    (handleResult st r).2 = none ∨
      ((handleResult st r).1.params.length < st.params.length ∧
        (handleResult st r).1.params ≠ []) := by
  have hpos : 1 ≤ st.params.length := List.length_pos.mpr h
  rw [handleResult]
  by_cases hf : r.res.found = false
  · rw [if_pos hf]
    obtain ⟨hle, hne⟩ := skipSameRatio_length st.params r.params.ratio
    have hpos' : 1 ≤ (skipSameRatio st.params r.params.ratio).length :=
      List.length_pos.mpr (hne h)
    rw [finishStep]
    split
    · exact Or.inl rfl
    · rename_i hlen1
      dsimp only at hlen1 ⊢
      refine Or.inr ⟨?_, ?_⟩
      · simp only [List.length_tail]
        omega
      · rw [← List.length_pos]
        simp only [List.length_tail]
        omega
  · simp only [if_neg hf]
    split
    · exact Or.inl rfl
    · rw [finishStep]
      split
      · exact Or.inl rfl
      · rename_i hlen1
        dsimp only at hlen1 ⊢
        refine Or.inr ⟨by simp only [List.length_tail]; omega,
          by rw [← List.length_pos]; simp only [List.length_tail]; omega⟩

theorem runCount_le : ∀ (rs : List IdentifyResult) (st : TrackIdentifier),
    st.params ≠ [] → runCount st rs ≤ st.params.length := by
  intro rs
  induction rs with
  | nil =>
    intro st h
    rw [runCount]
    exact Nat.zero_le _
  | cons r rs ih =>
    intro st h
    have hpos : 1 ≤ st.params.length := List.length_pos.mpr h
    rw [runCount]
    rcases hh : handleResult st r with ⟨st', nxt⟩
    rcases nxt with _ | p
    · exact hpos
    · rcases handleResult_step st r h with hnone | ⟨hlt, hne⟩
      · rw [hh] at hnone
        exact absurd hnone (by simp)
      · rw [hh] at hlt hne
        have := ih st' hne
        simp only at hlt ⊢
        omega

/-! ## Claim C7: search termination -/

/-- C7: the fresh probe queue holds 45 probes; every `handleResult` call
on a non-empty queue either ends the search or strictly shrinks the
queue while keeping it non-empty; hence any result sequence drives the
search to termination within `|queue|` calls, and within 45 calls from a
fresh identifier. -/
theorem C7_search_termination :
    (∀ path, (newTrackIdentifier path).params.length = 45) ∧
    (∀ st r, st.params ≠ [] →
      (handleResult st r).2 = none ∨
        ((handleResult st r).1.params.length < st.params.length ∧
          (handleResult st r).1.params ≠ [])) ∧
    (∀ st rs, st.params ≠ [] → runCount st rs ≤ st.params.length) ∧
    (∀ path rs, runCount (newTrackIdentifier path) rs ≤ 45) := by
  have h45 : ∀ path, (newTrackIdentifier path).params.length = 45 := fun _ => rfl
  refine ⟨h45, fun st r h => handleResult_step st r h, fun st rs h => runCount_le rs st h, ?_⟩
  intro path rs
  have := runCount_le rs (newTrackIdentifier path) (by
    intro hnil
    have := h45 path
    rw [hnil] at this
    simp at this)
  rw [h45 path] at this
  exact this

/-- Witness for C7: a concrete two-probe queue shrinks on a found
result. -/
theorem C7_search_termination_witness :
    (newTrackIdentifier "x").params.length = 45 ∧
      ((handleResult ⟨"x", [⟨1, 24⟩, ⟨2, 48⟩], [], none⟩
          ⟨⟨1, 24⟩, ⟨true, 0, "a", "t", "", "", ""⟩, 0⟩).2 = none ∨
        ((handleResult ⟨"x", [⟨1, 24⟩, ⟨2, 48⟩], [], none⟩
            ⟨⟨1, 24⟩, ⟨true, 0, "a", "t", "", "", ""⟩, 0⟩).1.params.length < 2 ∧
          (handleResult ⟨"x", [⟨1, 24⟩, ⟨2, 48⟩], [], none⟩
            ⟨⟨1, 24⟩, ⟨true, 0, "a", "t", "", "", ""⟩, 0⟩).1.params ≠ [])) ∧
      runCount ⟨"x", [⟨1, 24⟩, ⟨2, 48⟩], [], none⟩
        [⟨⟨1, 24⟩, ⟨false, 0, "", "", "", "", ""⟩, 0⟩] ≤ 2 :=
  ⟨C7_search_termination.1 "x",
   C7_search_termination.2.1 ⟨"x", [⟨1, 24⟩, ⟨2, 48⟩], [], none⟩
     ⟨⟨1, 24⟩, ⟨true, 0, "a", "t", "", "", ""⟩, 0⟩ (by decide),
   C7_search_termination.2.2.1 ⟨"x", [⟨1, 24⟩, ⟨2, 48⟩], [], none⟩
     [⟨⟨1, 24⟩, ⟨false, 0, "", "", "", "", ""⟩, 0⟩] (by decide)⟩

/-! ## Claim C4: the not-found skip rule -/

/-- A not-found result at the given probe coordinates. -/
def notFound (pms : IdentifyParams) : IdentifyResult :=
  ⟨pms, ⟨false, 0, "", "", "", "", ""⟩, 0⟩

/-- The state after one `handleResult` call. -/
def stepSt (st : TrackIdentifier) (r : IdentifyResult) : TrackIdentifier :=
  (handleResult st r).1

/-- The state after `n` not-found results, each at the head probe. -/
def runNotFound : TrackIdentifier → Nat → TrackIdentifier
  | st, 0 => st
  | st, n + 1 => runNotFound (stepSt st (notFound (st.params.headD ⟨0, 0⟩))) n

/-- Checks that `n` not-found results at the successive head probes form
a genuine driver run: each call found a head probe and returned a next
probe. -/
def liveNotFound : TrackIdentifier → Nat → Bool
  | _, 0 => true
  | st, n + 1 =>
    match st.params.head? with
    | none => false
    | some p => (handleResult st (notFound p)).2.isSome &&
        liveNotFound (stepSt st (notFound p)) n

set_option maxRecDepth 8000 in
/-- C4 (counterexample): the skip rule fails on the last ratio group.
Fifteen consecutive not-found results, each at the then-current head
probe, form a live driver run from a fresh identifier.  After fourteen
of them the queue holds exactly the three ratio-1.00 probes; the
fifteenth not-found result (at ratio 1.00, offset 24 s) does NOT
discard all remaining ratio-1.00 probes and does NOT end the search:
it returns the probe (1.00, 72 s), whose ratio equals the ratio just
tried, because the skip loop's `len(id.params) > 2` guard never
examines the final queue entry. -/
theorem C4_notfound_skip_counterexample :
    liveNotFound (newTrackIdentifier "") 15 = true ∧
    (runNotFound (newTrackIdentifier "") 14).params = [⟨1, 24⟩, ⟨1, 48⟩, ⟨1, 72⟩] ∧
    (handleResult (runNotFound (newTrackIdentifier "") 14) (notFound ⟨1, 24⟩)).2 =
      some ⟨1, 72⟩ ∧
    (⟨1, 72⟩ : IdentifyParams).ratio = (notFound ⟨1, 24⟩).params.ratio :=
  ⟨by decide, by decide, by decide, by decide⟩

/-- C4 (amended): on a not-found result the driver discards the current
ratio's remaining probes, except that the final queue entry is never
examined by the skip loop.  Precisely: with queue `p0 :: t`, (i) if `t`
is empty the search ends, and (ii) if some probe of `t` before its last
entry has a different ratio, the next returned probe has a ratio
different from the one just tried.  (When every probe of `t` except
possibly its last has the just-tried ratio, the code can return the
last probe even at the same ratio --- the counterexample.) -/
theorem C4_notfound_skip (st : TrackIdentifier) (r : IdentifyResult)
    (hnf : r.res.found = false) (p0 : IdentifyParams) (t : List IdentifyParams)
    (hps : st.params = p0 :: t) :
    (t = [] → (handleResult st r).2 = none) ∧
    ((∃ q ∈ t.dropLast, q.ratio ≠ r.params.ratio) →
      ∃ p, (handleResult st r).2 = some p ∧ p.ratio ≠ r.params.ratio) := by
  constructor
  · rintro rfl
    rw [handleResult, if_pos hnf, hps]
    rfl
  · rintro ⟨q, hq, hqr⟩
    obtain ⟨a, b, rest, hskip, hbr⟩ := skipSameRatio_spec st.params r.params.ratio
      ⟨q, by rw [hps]; simpa using hq, hqr⟩
    refine ⟨b, ?_, hbr⟩
    rw [handleResult, if_pos hnf]
    rw [finishStep]
    dsimp only
    rw [hskip]
    rw [if_neg (by simp)]
    rfl

/-- Witness for C4: a queue whose tail has a different ratio before its
last entry; the next probe after a not-found result is at that other
ratio. -/
theorem C4_notfound_skip_witness :
    ((notFound ⟨1, 24⟩).res.found = false) ∧
      (∃ p, (handleResult ⟨"x", [⟨1, 24⟩, ⟨1, 48⟩, ⟨2, 24⟩, ⟨2, 48⟩], [], none⟩
          (notFound ⟨1, 24⟩)).2 = some p ∧ p.ratio ≠ (notFound ⟨1, 24⟩).params.ratio) :=
  ⟨by decide,
   (C4_notfound_skip ⟨"x", [⟨1, 24⟩, ⟨1, 48⟩, ⟨2, 24⟩, ⟨2, 48⟩], [], none⟩
     (notFound ⟨1, 24⟩) (by decide) ⟨1, 24⟩ [⟨1, 48⟩, ⟨2, 24⟩, ⟨2, 48⟩] rfl).2
     ⟨⟨2, 24⟩, by decide, by decide⟩⟩

/-! ## Claim C5: the agreement rule -/

/-- C5: whenever a `handleResult` call chooses the sample, the chosen
result is the result just handled, the call ends the search (returns no
next probe), at least three logged results share the sample's (artist,
title) pair, and the sample is the last (latest) entry of the log. -/
theorem C5_agreement (st : TrackIdentifier) (r smp : IdentifyResult)
    (h0 : st.sample = none) (h : (handleResult st r).1.sample = some smp) :
    smp = r ∧ (handleResult st r).2 = none ∧
      3 ≤ (handleResult st r).1.results.countP (fun res =>
        res.res.artist = smp.res.artist && res.res.title = smp.res.title) ∧
      (handleResult st r).1.results.getLast? = some smp := by
  by_cases hf : r.res.found = false
  · exfalso
    rw [handleResult, if_pos hf, finishStep_sample] at h
    dsimp only at h
    rw [h0] at h
    exact Option.noConfusion h
  · by_cases h3 : (st.results ++ [r]).countP (fun res =>
        res.res.artist = r.res.artist && res.res.title = r.res.title) = 3
    · have hH : handleResult st r =
          ({ path := st.path, params := st.params,
             results := st.results ++ [r], sample := some r }, none) := by
        rw [handleResult, if_neg hf]
        simp only [if_pos h3]
      have hr : smp = r := Option.some.inj (by rw [hH] at h; exact h.symm)
      subst hr
      exact ⟨rfl, by rw [hH], by rw [hH]; exact h3.ge,
        by rw [hH]; exact List.getLast?_concat _⟩
    · exfalso
      rw [handleResult, if_neg hf] at h
      simp only [h3, if_false, finishStep_sample] at h
      rw [h0] at h
      exact Option.noConfusion h

/-- Witness for C5: a third agreeing found result chooses the sample. -/
theorem C5_agreement_witness :
    (⟨"x", [⟨1, 24⟩, ⟨1, 48⟩], [⟨⟨1, 24⟩, ⟨true, 0, "a", "t", "", "", ""⟩, 0⟩,
        ⟨⟨1, 48⟩, ⟨true, 0, "a", "t", "", "", ""⟩, 0⟩], none⟩ : TrackIdentifier).sample = none ∧
      (handleResult ⟨"x", [⟨1, 24⟩, ⟨1, 48⟩], [⟨⟨1, 24⟩, ⟨true, 0, "a", "t", "", "", ""⟩, 0⟩,
        ⟨⟨1, 48⟩, ⟨true, 0, "a", "t", "", "", ""⟩, 0⟩], none⟩
        ⟨⟨1, 48⟩, ⟨true, 0, "a", "t", "", "", ""⟩, 0⟩).2 = none := by
  refine ⟨rfl, ?_⟩
  exact (C5_agreement _ ⟨⟨1, 48⟩, ⟨true, 0, "a", "t", "", "", ""⟩, 0⟩
    ⟨⟨1, 48⟩, ⟨true, 0, "a", "t", "", "", ""⟩, 0⟩ rfl (by decide)).2.1

/-! ## SHA-256 (for the signature fixtures of `signature_test.go`) -/

/-- Right rotation of a 32-bit word. -/
def rotr32 (x n : Nat) : Nat := ((x >>> n) ||| (x <<< (32 - n))) % 4294967296

/-- The SHA-256 choice function (complement written as xor with the
all-ones 32-bit mask). -/
def shaCh (x y z : Nat) : Nat := (x &&& y) ^^^ ((x ^^^ 4294967295) &&& z)

/-- The SHA-256 majority function. -/
def shaMaj (x y z : Nat) : Nat := (x &&& y) ^^^ (x &&& z) ^^^ (y &&& z)

/-- The SHA-256 big sigma-0 function. -/
def shaS0 (x : Nat) : Nat := rotr32 x 2 ^^^ rotr32 x 13 ^^^ rotr32 x 22

/-- The SHA-256 big sigma-1 function. -/
def shaS1 (x : Nat) : Nat := rotr32 x 6 ^^^ rotr32 x 11 ^^^ rotr32 x 25

/-- The SHA-256 small sigma-0 function. -/
def shas0 (x : Nat) : Nat := rotr32 x 7 ^^^ rotr32 x 18 ^^^ (x >>> 3)

/-- The SHA-256 small sigma-1 function. -/
def shas1 (x : Nat) : Nat := rotr32 x 17 ^^^ rotr32 x 19 ^^^ (x >>> 10)

/-- The 64 SHA-256 round constants. -/
def shaK : List Nat :=
  [1116352408, 1899447441, 3049323471, 3921009573, 961987163, 1508970993,
   2453635748, 2870763221, 3624381080, 310598401, 607225278, 1426881987,
   1925078388, 2162078206, 2614888103, 3248222580, 3835390401, 4022224774,
   264347078, 604807628, 770255983, 1249150122, 1555081692, 1996064986,
   2554220882, 2821834349, 2952996808, 3210313671, 3336571891, 3584528711,
   113926993, 338241895, 666307205, 773529912, 1294757372, 1396182291,
   1695183700, 1986661051, 2177026350, 2456956037, 2730485921, 2820302411,
   3259730800, 3345764771, 3516065817, 3600352804, 4094571909, 275423344,
   430227734, 506948616, 659060556, 883997877, 958139571, 1322822218,
   1537002063, 1747873779, 1955562222, 2024104815, 2227730452, 2361852424,
   2428436474, 2756734187, 3204031479, 3329325298]

/-- Big-endian 32-bit words of a byte list. -/
def beWords : List Nat → List Nat
  | b0 :: b1 :: b2 :: b3 :: r => (((b0 * 256 + b1) * 256 + b2) * 256 + b3) :: beWords r
  | _ => []

/-- Message-schedule extension: append `n` further words to the 16 block
words (kept strict for constant-depth kernel reduction). -/
def schedExt : List Nat → Nat → List Nat
  | ws, 0 => ws
  | ws, n + 1 =>
    strict ((shas1 (ws.getD (ws.length - 2) 0) + ws.getD (ws.length - 7) 0 +
        shas0 (ws.getD (ws.length - 15) 0) + ws.getD (ws.length - 16) 0) % 4294967296)
      fun w => schedExt (ws ++ [w]) n

/-- The eight 32-bit SHA-256 working variables. -/
def Sha8 : Type := Nat × Nat × Nat × Nat × Nat × Nat × Nat × Nat

/-- The SHA-256 compression rounds over paired round constants and
schedule words. -/
def compLoop : List Nat → List Nat → Sha8 → Sha8
  | k :: ks, w :: ws, (a, b, c, d, e, f, g, h) =>
    strict ((h + shaS1 e + shaCh e f g + k + w) % 4294967296) fun t1 =>
    strict ((shaS0 a + shaMaj a b c) % 4294967296) fun t2 =>
    strict ((d + t1) % 4294967296) fun e2 =>
    strict ((t1 + t2) % 4294967296) fun a2 =>
    compLoop ks ws (a2, a, b, c, e2, e, f, g)
  | _, _, st => st

/-- One 64-byte block: compress and add into the chaining state. -/
def shaBlock (st : Sha8) (block : List Nat) : Sha8 :=
  match st, compLoop shaK (schedExt (beWords block) 48) st with
  | (h0, h1, h2, h3, h4, h5, h6, h7), (a, b, c, d, e, f, g, h) =>
    strict ((h0 + a) % 4294967296) fun v0 =>
    strict ((h1 + b) % 4294967296) fun v1 =>
    strict ((h2 + c) % 4294967296) fun v2 =>
    strict ((h3 + d) % 4294967296) fun v3 =>
    strict ((h4 + e) % 4294967296) fun v4 =>
    strict ((h5 + f) % 4294967296) fun v5 =>
    strict ((h6 + g) % 4294967296) fun v6 =>
    strict ((h7 + h) % 4294967296) fun v7 =>
    (v0, v1, v2, v3, v4, v5, v6, v7)

/-- All 64-byte blocks of a padded message, guarded by fuel (the fuel
`length / 64 + 1` used by `sha256` never runs out). -/
def shaBlocksF : Nat → Sha8 → List Nat → Sha8
  | 0, st, _ => st
  | _, st, [] => st
  | fuel + 1, st, l => shaBlocksF fuel (shaBlock st (l.take 64)) (l.drop 64)

/-- Big-endian 64-bit byte encoding. -/
def be64 (n : Nat) : List Nat :=
  [n / 72057594037927936 % 256, n / 281474976710656 % 256, n / 1099511627776 % 256,
   n / 4294967296 % 256, n / 16777216 % 256, n / 65536 % 256, n / 256 % 256, n % 256]

/-- Big-endian 32-bit byte encoding. -/
def be32 (n : Nat) : List Nat :=
  [n / 16777216 % 256, n / 65536 % 256, n / 256 % 256, n % 256]

/-- SHA-256 padding: a 0x80 byte, zeros to 56 mod 64, and the bit length
as a big-endian 64-bit integer. -/
def shaPad (msg : List Nat) : List Nat :=
  msg ++ 128 :: (List.replicate ((55 + 64 - msg.length % 64) % 64) 0 ++ be64 (8 * msg.length))

/-- The SHA-256 digest of a byte list, as 32 bytes. -/
def sha256 (msg : List Nat) : List Nat :=
  let p := shaPad msg
  match shaBlocksF (p.length / 64 + 1)
      (0x6a09e667, 0xbb67ae85, 0x3c6ef372, 0xa54ff53a,
       0x510e527f, 0x9b05688c, 0x1f83d9ab, 0x5be0cd19) p with
  | (a, b, c, d, e, f, g, h) =>
    be32 a ++ be32 b ++ be32 c ++ be32 d ++ be32 e ++ be32 f ++ be32 g ++ be32 h

/-! ## The signature builder (`ComputeSignature`, src/unnamed/part_001)

The float64 environment is parameterized: the Hanning window table, the
FFT coefficients and `math.Log` become oracle functions over `ℚ`, and
every theorem below quantifies over all oracles.  The builder's own
arithmetic (rounding, maxima, the variation quotient, the band filter)
is embedded exactly over `ℚ`/`Int`. -/

/-- A 1025-entry FFT output array, modelled as a function. -/
def Frame : Type := Nat → ℚ

/-- The Go generic `ring[T]`: a fixed-size buffer and a write cursor. -/
structure RingBuf (α : Type) where
  buf : Nat → α
  size : Nat
  index : Nat

/-- `ring.mod`: reduce a (possibly negative) offset into `[0, size)`. -/
def RingBuf.modIdx {α : Type} (r : RingBuf α) (i : Int) : Nat :=
  (i % (r.size : Int)).toNat

/-- `ring.At`: the element at signed offset `i` from the cursor. -/
def RingBuf.At {α : Type} (r : RingBuf α) (i : Int) : α :=
  r.buf (r.modIdx ((r.index : Int) + i))

/-- `ring.Append` of one element: write at the cursor, then advance. -/
def RingBuf.append1 {α : Type} (r : RingBuf α) (x : α) : RingBuf α :=
  ⟨fun n => if n = r.index then x else r.buf n, r.size, (r.index + 1) % r.size⟩

/-- `ring.Append` of a list of elements. -/
def RingBuf.appendList {α : Type} (r : RingBuf α) (xs : List α) : RingBuf α :=
  xs.foldl RingBuf.append1 r

/-- `ring.Slice` of the whole buffer at offset 0: the contents in cursor
order (oldest first). -/
def RingBuf.sliceAll {α : Type} (r : RingBuf α) : List α :=
  (List.range r.size).map fun k => r.buf ((r.index + k) % r.size)

/-- The float64 environment of the builder: the `hanningMultipliers`
table, the real and imaginary parts of `fft.Coefficients` entry `b` for
a given input list, and `math.Log`. -/
structure Oracles where
  hann : Nat → ℚ
  fftc : List ℚ → Nat → ℚ × ℚ
  lg : ℚ → ℚ

/-- `math.Round`: round to the nearest integer, halves away from zero. -/
def roundQ (x : ℚ) : ℚ :=
  if x < 0 then -((Int.floor (-x + mkRat 1 2) : ℚ)) else (Int.floor (x + mkRat 1 2) : ℚ)

/-- Go `int(x)` on a float: truncation toward zero. -/
def qtrunc (q : ℚ) : Int := q.num.tdiv (q.den : Int)

/-- Frequency-domain spreading: the in-place ascending loop replaces
entry `b < 1023` by the maximum over `b`, `b+1`, `b+2` of the original
frame. -/
def spreadF (f : Frame) : Frame :=
  fun b => if b < 1023 then max (f b) (max (f (b + 1)) (f (b + 2))) else f b

/-- `normalizePeak`: logarithmic magnitude scaling (the float constant
1477.3 is the exact rational 14773/10). -/
def normalizePeak (O : Oracles) (x : ℚ) : ℚ :=
  O.lg (max x (mkRat 1 64)) * mkRat 14773 10 + 6144

/-- `peakBand`: the frequency-band lookup over
`hz = bin*sampleRate/131072` (Go integer division); `none` models the
absent map key. -/
def peakBand (sampleRate bin : Int) : Option Nat :=
  let hz := (bin * sampleRate).tdiv 131072
  if 250 ≤ hz ∧ hz < 520 then some 0
  else if 520 ≤ hz ∧ hz < 1450 then some 1
  else if 1450 ≤ hz ∧ hz < 3500 then some 2
  else if 3500 ≤ hz ∧ hz ≤ 5500 then some 3
  else none

/-- `maxNeighbor`: the maximum of the spread ring at time offset -49 over
eight frequency offsets, and of fourteen further time offsets at
`bin - 1`. -/
def maxNeighbor (so : RingBuf Frame) (bin : Nat) : ℚ :=
  let n1 := [(-10 : Int), -7, -4, -3, 1, 2, 5, 8].foldl
    (fun acc off => max acc (RingBuf.At so (-49) (((bin : Int) + off).toNat))) 0
  [(-53 : Int), -45, 165, 172, 179, 186, 193, 200, 214, 221, 228, 235, 242, 249].foldl
    (fun acc off => max acc ((RingBuf.At so off) (bin - 1))) n1

/-- The builder's loop state: the three rings and the peak tables. -/
structure BuildState where
  samplesRing : RingBuf ℚ
  fftOutputs : RingBuf Frame
  spreadOutputs : RingBuf Frame
  peaksByBand : List (List FrequencyPeak)

/-- The initial loop state: zeroed rings and five empty bands. -/
def initBuild : BuildState :=
  ⟨⟨fun _ => 0, 2048, 0⟩, ⟨fun _ _ => 0, 256, 0⟩, ⟨fun _ _ => 0, 256, 0⟩,
   [[], [], [], [], []]⟩

/-- One time-domain spreading update: the frame at signed cursor offset
`off` is replaced by its pointwise maximum with `sp`. -/
def timeSpread (r : RingBuf Frame) (off : Int) (sp : Frame) : RingBuf Frame :=
  let m := r.modIdx ((r.index : Int) + off)
  { r with buf := fun n => if n = m then (fun b => max (r.buf m b) (sp b)) else r.buf n }

/-- The three time-domain spreading updates after appending the
freq-spread frame `sp`. -/
def spreadRings (so : RingBuf Frame) (sp : Frame) : RingBuf Frame :=
  timeSpread (timeSpread (timeSpread (so.append1 sp) (-2) sp) (-4) sp) (-7) sp

/-- The FFT-and-spreading phase of one hop `i`: append the 128 new
samples, window and transform, append the clamped power frame, then
spread in frequency and at time offsets -2, -4, -7. -/
def spreadPhase (O : Oracles) (samples : List ℚ) (st : BuildState) (i : Nat) : BuildState :=
  let sr := st.samplesRing.appendList ((samples.drop (i * 128)).take 128)
  let reordered := sr.sliceAll
  let windowed := (List.range 2048).map fun k => roundQ (reordered.getD k 0 * 65536) * O.hann k
  let outputs : Frame := fun b =>
    if b < 1025 then
      max (((O.fftc windowed b).1 ^ 2 + (O.fftc windowed b).2 ^ 2) / 131072)
        (mkRat 1 10000000000)
    else 0
  let fr := st.fftOutputs.append1 outputs
  let so := spreadRings st.spreadOutputs (spreadF outputs)
  ⟨sr, fr, so, st.peaksByBand⟩

/-- The body of the recognition scan at one bin: accept a strict
maximum over `maxNeighbor`, quantize, and file the peak by frequency
band (an absent band drops the peak). -/
def recognizeBin (O : Oracles) (sampleRate : Int) (fftOutput : Frame) (so : RingBuf Frame)
    (i : Nat) (acc : List (List FrequencyPeak)) (bin : Nat) : List (List FrequencyPeak) :=
  if maxNeighbor so bin < fftOutput bin then
    let before := normalizePeak O (fftOutput (bin - 1))
    let peak := normalizePeak O (fftOutput bin)
    let after := normalizePeak O (fftOutput (bin + 1))
    let variation := qtrunc ((32 * (after - before)) / (2 * peak - after - before))
    let peakBin := (bin : Int) * 64 + variation
    match peakBand sampleRate peakBin with
    | some band => acc.set band (acc.getD band [] ++ [⟨(i : Int) - 45, qtrunc peak, peakBin⟩])
    | none => acc
  else acc

/-- The peak-recognition phase of hop `i`: scan bins 10..1014 of the FFT
frame at time offset -46.  (Irreducible: elaborator-level definitional
unfolding would symbolically run the 1005-bin scan.) -/
@[irreducible] def recognize (O : Oracles) (sampleRate : Int) (fr so : RingBuf Frame) (i : Nat)
    (pk : List (List FrequencyPeak)) : List (List FrequencyPeak) :=
  (List.range' 10 1005).foldl (recognizeBin O sampleRate (fr.At (-46)) so i) pk

/-- One iteration of the builder's main loop: spreading always,
recognition from hop 45 on. -/
def hopStep (O : Oracles) (sampleRate : Int) (samples : List ℚ) (st : BuildState) (i : Nat) :
    BuildState :=
  let st2 := spreadPhase O samples st i
  if i < 45 then st2
  else ⟨st2.samplesRing, st2.fftOutputs, st2.spreadOutputs,
    recognize O sampleRate st2.fftOutputs st2.spreadOutputs i st2.peaksByBand⟩

/-- The number of loop iterations on `n` samples: the body runs for each
`i` with `i*128 + 128 < n`. -/
def hops (n : Nat) : Nat := (n - 1) / 128

/-- `ComputeSignature` (src/unnamed/part_001), over the oracle
environment `O`. -/
def computeSignature (O : Oracles) (sampleRate : Int) (samples : List ℚ) : Signature :=
  let st := (List.range (hops samples.length)).foldl (hopStep O sampleRate samples) initBuild
  ⟨sampleRate, (samples.length : Int), st.peaksByBand⟩

/-! ### Quantization and variation bounds -/

theorem qtrunc_neg_eq (q : ℚ) : qtrunc (-q) = -qtrunc q := by
  simp [qtrunc, Rat.num_neg_eq_neg_num, Rat.den_neg_eq_den]

theorem qtrunc_eq_floor {q : ℚ} (h : 0 ≤ q) : qtrunc q = Int.floor q := by
  rw [qtrunc, Rat.floor_def]
  exact Int.tdiv_eq_ediv (Rat.num_nonneg.mpr h) (Int.natCast_nonneg _)

theorem qtrunc_bounds {q : ℚ} (h1 : -32 ≤ q) (h2 : q ≤ 32) :
    -32 ≤ qtrunc q ∧ qtrunc q ≤ 32 := by
  rcases le_or_lt 0 q with hq | hq
  · rw [qtrunc_eq_floor hq]
    constructor
    · have : (0 : Int) ≤ Int.floor q := Int.floor_nonneg.mpr hq
      omega
    · have : Int.floor q ≤ Int.floor (32 : ℚ) := Int.floor_le_floor h2
      simpa using this
  · have hq2 : qtrunc q = -qtrunc (-q) := by
      rw [← qtrunc_neg_eq, neg_neg]
    rw [hq2, qtrunc_eq_floor (by linarith)]
    have hub : Int.floor (-q) ≤ Int.floor (32 : ℚ) := Int.floor_le_floor (by linarith)
    have hlb : (0 : Int) ≤ Int.floor (-q) := Int.floor_nonneg.mpr (by linarith)
    simp only [Int.floor_ofNat] at hub
    omega

theorem variation_q_bounds {pk bf af : ℚ} (h1 : bf ≤ pk) (h2 : af ≤ pk) :
    -32 ≤ 32 * (af - bf) / (2 * pk - af - bf) ∧
      32 * (af - bf) / (2 * pk - af - bf) ≤ 32 := by
  rcases eq_or_lt_of_le (by linarith : (0 : ℚ) ≤ 2 * pk - af - bf) with hd | hd
  · rw [← hd, div_zero]
    norm_num
  · constructor
    · rw [le_div_iff₀ hd]
      linarith
    · rw [div_le_iff₀ hd]
      linarith

theorem normalizePeak_mono (O : Oracles) (hlg : Monotone O.lg) {x y : ℚ} (hxy : x ≤ y) :
    normalizePeak O x ≤ normalizePeak O y := by
  unfold normalizePeak
  have h1 : max x (mkRat 1 64) ≤ max y (mkRat 1 64) := max_le_max hxy (le_refl _)
  have h2 : O.lg (max x (mkRat 1 64)) ≤ O.lg (max y (mkRat 1 64)) := hlg h1
  have h3 : (0 : ℚ) ≤ mkRat 14773 10 := by decide
  exact add_le_add_right (mul_le_mul_of_nonneg_right h2 h3) _

/-! ### maxNeighbor lower bounds -/

theorem foldl_max_le_init {α : Type} (g : α → ℚ) (l : List α) (a : ℚ) :
    a ≤ l.foldl (fun acc x => max acc (g x)) a := by
  induction l generalizing a with
  | nil => exact le_refl _
  | cons y l ih => exact le_trans (le_max_left _ _) (ih _)

theorem foldl_max_le_mem {α : Type} (g : α → ℚ) (l : List α) (a : ℚ) {x : α}
    (hx : x ∈ l) : g x ≤ l.foldl (fun acc x => max acc (g x)) a := by
  induction l generalizing a with
  | nil => cases hx
  | cons y l ih =>
    rcases List.mem_cons.mp hx with h | h
    · subst h
      exact le_trans (le_max_right _ _) (foldl_max_le_init _ _ _)
    · exact ih _ h

theorem le_maxNeighbor_p1 (so : RingBuf Frame) (bin : Nat) :
    RingBuf.At so (-49) (((bin : Int) + 1).toNat) ≤ maxNeighbor so bin := by
  simp only [maxNeighbor]
  exact le_trans
    (foldl_max_le_mem (fun off => RingBuf.At so (-49) (((bin : Int) + off).toNat))
      [(-10 : Int), -7, -4, -3, 1, 2, 5, 8] 0 (by simp))
    (foldl_max_le_init (fun off => (RingBuf.At so off) (bin - 1))
      [(-53 : Int), -45, 165, 172, 179, 186, 193, 200, 214, 221, 228, 235, 242, 249] _)

theorem le_maxNeighbor_m3 (so : RingBuf Frame) (bin : Nat) :
    RingBuf.At so (-49) (((bin : Int) + (-3)).toNat) ≤ maxNeighbor so bin := by
  simp only [maxNeighbor]
  exact le_trans
    (foldl_max_le_mem (fun off => RingBuf.At so (-49) (((bin : Int) + off).toNat))
      [(-10 : Int), -7, -4, -3, 1, 2, 5, 8] 0 (by simp))
    (foldl_max_le_init (fun off => (RingBuf.At so off) (bin - 1))
      [(-53 : Int), -45, 165, 172, 179, 186, 193, 200, 214, 221, 228, 235, 242, 249] _)

/-! ### Ring-update lemmas -/

theorem timeSpread_size (r : RingBuf Frame) (off : Int) (sp : Frame) :
    (timeSpread r off sp).size = r.size := rfl

theorem timeSpread_index (r : RingBuf Frame) (off : Int) (sp : Frame) :
    (timeSpread r off sp).index = r.index := rfl

theorem timeSpread_buf_ge (r : RingBuf Frame) (off : Int) (sp : Frame) (n b : Nat) :
    r.buf n b ≤ (timeSpread r off sp).buf n b := by
  simp only [timeSpread]
  split
  · rename_i h
    rw [h]
    exact le_max_left _ _
  · exact le_refl _

theorem timeSpread_buf_self (r : RingBuf Frame) (off : Int) (sp : Frame) (b : Nat) :
    sp b ≤ (timeSpread r off sp).buf (r.modIdx ((r.index : Int) + off)) b := by
  simp only [timeSpread, if_pos rfl]
  exact le_max_right _ _

/-! ### The spreading-ring invariant

After `j` completed hops, the spread-ring slot written for hop `f`
(at index `(f + 253) % 256`, i.e. cursor offset -4 at hop `f`) still
dominates the freq-spread FFT frame of hop `f`, for every `f` that hop
`j` may still recognize (`j ≤ f + 46`): later appends write other slots
and later time-spreading only max-joins. -/

def SpreadInv (j : Nat) (st : BuildState) : Prop :=
  st.fftOutputs.size = 256 ∧ st.fftOutputs.index = j % 256 ∧
  st.spreadOutputs.size = 256 ∧ st.spreadOutputs.index = j % 256 ∧
  ∀ f, f < j → j ≤ f + 46 → ∀ b,
    spreadF (st.fftOutputs.buf (f % 256)) b ≤ st.spreadOutputs.buf ((f + 253) % 256) b

theorem ringStep_inv {fr so : RingBuf Frame} {j : Nat} (out : Frame)
    (hfs : fr.size = 256) (hfi : fr.index = j % 256)
    (hss : so.size = 256) (hsi : so.index = j % 256)
    (hinv : ∀ f, f < j → j ≤ f + 46 → ∀ b,
      spreadF (fr.buf (f % 256)) b ≤ so.buf ((f + 253) % 256) b) :
    (fr.append1 out).size = 256 ∧ (fr.append1 out).index = (j + 1) % 256 ∧
    (spreadRings so (spreadF out)).size = 256 ∧
    (spreadRings so (spreadF out)).index = (j + 1) % 256 ∧
    ∀ f, f < j + 1 → j + 1 ≤ f + 46 → ∀ b,
      spreadF ((fr.append1 out).buf (f % 256)) b ≤
        (spreadRings so (spreadF out)).buf ((f + 253) % 256) b := by
  have keyGe : ∀ n b, n ≠ j % 256 → so.buf n b ≤ (spreadRings so (spreadF out)).buf n b := by
    intro n b hne
    have h0 : (so.append1 (spreadF out)).buf n = so.buf n := by
      simp only [RingBuf.append1]
      rw [if_neg (by rw [hsi]; exact hne)]
    calc so.buf n b = (so.append1 (spreadF out)).buf n b := by rw [h0]
      _ ≤ (timeSpread (so.append1 (spreadF out)) (-2) (spreadF out)).buf n b :=
        timeSpread_buf_ge _ _ _ _ _
      _ ≤ (timeSpread (timeSpread (so.append1 (spreadF out)) (-2) (spreadF out)) (-4)
            (spreadF out)).buf n b := timeSpread_buf_ge _ _ _ _ _
      _ ≤ (spreadRings so (spreadF out)).buf n b := timeSpread_buf_ge _ _ _ _ _
  have keySelf : ∀ b, spreadF out b ≤ (spreadRings so (spreadF out)).buf ((j + 253) % 256) b := by
    intro b
    have hslot : (timeSpread (so.append1 (spreadF out)) (-2) (spreadF out)).modIdx
        (((timeSpread (so.append1 (spreadF out)) (-2) (spreadF out)).index : Int) + (-4)) =
        (j + 253) % 256 := by
      simp only [RingBuf.modIdx, timeSpread_size, timeSpread_index, RingBuf.append1, hss, hsi]
      omega
    have h1 := timeSpread_buf_self (timeSpread (so.append1 (spreadF out)) (-2) (spreadF out))
      (-4) (spreadF out) b
    rw [hslot] at h1
    exact le_trans h1 (timeSpread_buf_ge _ _ _ _ _)
  refine ⟨hfs, ?_, ?_, ?_, ?_⟩
  · simp only [RingBuf.append1, hfi, hfs]
    omega
  · simp only [spreadRings, timeSpread_size, RingBuf.append1]
    exact hss
  · simp only [spreadRings, timeSpread_index, RingBuf.append1, hsi, hss]
    omega
  · intro f hf1 hf2 b
    rcases Nat.lt_succ_iff_lt_or_eq.mp hf1 with hf | hf
    · have hne1 : f % 256 ≠ j % 256 := by omega
      have hb1 : (fr.append1 out).buf (f % 256) = fr.buf (f % 256) := by
        simp only [RingBuf.append1]
        rw [if_neg (by rw [hfi]; exact hne1)]
      have hne2 : (f + 253) % 256 ≠ j % 256 := by omega
      rw [hb1]
      exact le_trans (hinv f hf (by omega) b) (keyGe _ b hne2)
    · subst hf
      have hb1 : (fr.append1 out).buf (f % 256) = out := by
        simp only [RingBuf.append1]
        rw [if_pos hfi.symm]
      rw [hb1]
      exact keySelf b

theorem spreadPhase_inv (O : Oracles) (samples : List ℚ) {j : Nat} {st : BuildState}
    (h : SpreadInv j st) (i : Nat) : SpreadInv (j + 1) (spreadPhase O samples st i) := by
  obtain ⟨hfs, hfi, hss, hsi, hinv⟩ := h
  exact ringStep_inv _ hfs hfi hss hsi hinv

/-! ### Peaks stay in the bin range -/

/-- Every stored peak's corrected bin lies in `[640, 64960]`. -/
def pkOk (pk : List (List FrequencyPeak)) : Prop :=
  ∀ l ∈ pk, ∀ p ∈ l, 640 ≤ p.bin ∧ p.bin ≤ 64960

theorem pkOk_set_append {pk : List (List FrequencyPeak)} {band : Nat} {p : FrequencyPeak}
    (hpk : pkOk pk) (hp : 640 ≤ p.bin ∧ p.bin ≤ 64960) :
    pkOk (pk.set band (pk.getD band [] ++ [p])) := by
  intro l hl q hq
  rcases List.mem_or_eq_of_mem_set hl with h | h
  · exact hpk l h q hq
  · subst h
    rcases List.mem_append.mp hq with h | h
    · rcases Nat.lt_or_ge band pk.length with hb | hb
      · have hmem : pk.getD band [] ∈ pk := by
          rw [List.getD_eq_getElem?_getD, List.getElem?_eq_getElem hb]
          exact List.getElem_mem hb
        exact hpk _ hmem q h
      · have hnil : pk.getD band [] = [] := by
          rw [List.getD_eq_getElem?_getD, List.getElem?_eq_none hb]
          rfl
        rw [hnil] at h
        cases h
    · rw [List.mem_singleton.mp h]
      exact hp

theorem validRate_cases {r : Int} (hr : validRate r = true) :
    r = 8000 ∨ r = 11025 ∨ r = 16000 ∨ r = 32000 ∨ r = 44100 := by
  simp only [validRate, Bool.or_eq_true, decide_eq_true_eq] at hr
  tauto

theorem peakBand_hz {sampleRate bin : Int} {band : Nat}
    (h : peakBand sampleRate bin = some band) :
    250 ≤ (bin * sampleRate).tdiv 131072 ∧ (bin * sampleRate).tdiv 131072 ≤ 5500 := by
  simp only [peakBand] at h
  split at h
  · rename_i hc
    exact ⟨hc.1, by omega⟩
  · split at h
    · rename_i hc
      exact ⟨by omega, by omega⟩
    · split at h
      · rename_i hc
        exact ⟨by omega, by omega⟩
      · split at h
        · rename_i hc
          exact ⟨by omega, hc.2⟩
        · exact absurd h (by simp)

theorem peakBand_lb {sampleRate bin : Int} {band : Nat} (hr : validRate sampleRate = true)
    (hbin : 0 ≤ bin) (h : peakBand sampleRate bin = some band) : 744 ≤ bin := by
  obtain ⟨h250, _⟩ := peakBand_hz h
  have ht : (bin * sampleRate).tdiv 131072 = (bin * sampleRate) / 131072 := by
    rcases validRate_cases hr with h5 | h5 | h5 | h5 | h5 <;>
      exact Int.tdiv_eq_ediv (by rw [h5]; positivity) (by norm_num)
  rw [ht] at h250
  rcases validRate_cases hr with h5 | h5 | h5 | h5 | h5 <;> rw [h5] at h250 <;> omega

theorem recognizeBin_pkOk (O : Oracles) (hlg : Monotone O.lg) {sampleRate : Int}
    (hr : validRate sampleRate = true) (F : Frame) (so : RingBuf Frame) (i bin : Nat)
    (hS : ∀ b, spreadF F b ≤ RingBuf.At so (-49) b)
    (hb10 : 10 ≤ bin) (hb1015 : bin < 1015) {pk : List (List FrequencyPeak)}
    (hpk : pkOk pk) : pkOk (recognizeBin O sampleRate F so i pk bin) := by
  rw [recognizeBin]
  by_cases hacc : maxNeighbor so bin < F bin
  · rw [if_pos hacc]
    have hup : F (bin + 1) ≤ F bin := by
      have e1 : ((bin : Int) + 1).toNat = bin + 1 := by omega
      have h1 := le_maxNeighbor_p1 so bin
      rw [e1] at h1
      have h2 : F (bin + 1) ≤ spreadF F (bin + 1) := by
        rw [spreadF]
        rw [if_pos (by omega)]
        exact le_max_left _ _
      exact le_of_lt (lt_of_le_of_lt (le_trans (le_trans h2 (hS (bin + 1))) h1) hacc)
    have hdown : F (bin - 1) ≤ F bin := by
      have e2 : ((bin : Int) + (-3)).toNat = bin - 3 := by omega
      have h1 := le_maxNeighbor_m3 so bin
      rw [e2] at h1
      have h2 : F (bin - 1) ≤ spreadF F (bin - 3) := by
        rw [spreadF]
        rw [if_pos (by omega)]
        have e3 : bin - 3 + 2 = bin - 1 := by omega
        rw [e3]
        exact le_trans (le_max_right _ _) (le_max_right _ _)
      exact le_of_lt (lt_of_le_of_lt (le_trans (le_trans h2 (hS (bin - 3))) h1) hacc)
    have hbf : normalizePeak O (F (bin - 1)) ≤ normalizePeak O (F bin) :=
      normalizePeak_mono O hlg hdown
    have haf : normalizePeak O (F (bin + 1)) ≤ normalizePeak O (F bin) :=
      normalizePeak_mono O hlg hup
    have hq := variation_q_bounds hbf haf
    have hv := qtrunc_bounds hq.1 hq.2
    dsimp only
    split
    · rename_i band heq
      refine pkOk_set_append hpk ⟨?_, ?_⟩
      · have h744 := peakBand_lb hr (by omega) heq
        dsimp only
        omega
      · dsimp only
        omega
    · exact hpk
  · rw [if_neg hacc]
    exact hpk

theorem recognize_pkOk (O : Oracles) (hlg : Monotone O.lg) {sampleRate : Int}
    (hr : validRate sampleRate = true) (fr so : RingBuf Frame) (i : Nat)
    (hS : ∀ b, spreadF (fr.At (-46)) b ≤ RingBuf.At so (-49) b)
    {pk : List (List FrequencyPeak)} (hpk : pkOk pk) :
    pkOk (recognize O sampleRate fr so i pk) := by
  rw [recognize]
  have key : ∀ (l : List Nat), (∀ x ∈ l, 10 ≤ x ∧ x < 1015) →
      ∀ pk2, pkOk pk2 → pkOk (l.foldl (recognizeBin O sampleRate (fr.At (-46)) so i) pk2) := by
    intro l
    induction l with
    | nil => intro _ pk2 h; exact h
    | cons bin t ih =>
      intro hb pk2 hpk2
      rw [List.foldl_cons]
      refine ih (fun x hx => hb x (List.mem_cons_of_mem _ hx)) _ ?_
      obtain ⟨h10, h1015⟩ := hb bin (List.mem_cons_self _ _)
      exact recognizeBin_pkOk O hlg hr _ so i bin hS h10 h1015 hpk2
  refine key _ ?_ pk hpk
  intro x hx
  have := List.mem_range'_1.mp hx
  omega

/-! ### The main loop invariant -/

def BuildInv (j : Nat) (st : BuildState) : Prop :=
  SpreadInv j st ∧ pkOk st.peaksByBand

set_option maxRecDepth 4000 in
theorem hopStep_inv (O : Oracles) (sampleRate : Int) (samples : List ℚ)
    (hlg : Monotone O.lg) (hr : validRate sampleRate = true)
    {j : Nat} {st : BuildState} (h : BuildInv j st) :
    BuildInv (j + 1) (hopStep O sampleRate samples st j) := by
  have h2 : SpreadInv (j + 1) (spreadPhase O samples st j) := spreadPhase_inv O samples h.1 j
  have hpk2 : (spreadPhase O samples st j).peaksByBand = st.peaksByBand := rfl
  have hH : hopStep O sampleRate samples st j =
      if j < 45 then spreadPhase O samples st j
      else ⟨(spreadPhase O samples st j).samplesRing, (spreadPhase O samples st j).fftOutputs,
        (spreadPhase O samples st j).spreadOutputs,
        recognize O sampleRate (spreadPhase O samples st j).fftOutputs
          (spreadPhase O samples st j).spreadOutputs j
          (spreadPhase O samples st j).peaksByBand⟩ := rfl
  rw [hH]
  by_cases hj : j < 45
  · rw [if_pos hj]
    refine ⟨h2, ?_⟩
    rw [hpk2]
    exact h.2
  · rw [if_neg hj]
    obtain ⟨hfs2, hfi2, hss2, hsi2, hinv2⟩ := h2
    refine ⟨⟨hfs2, hfi2, hss2, hsi2, hinv2⟩, ?_⟩
    have hS : ∀ b, spreadF ((spreadPhase O samples st j).fftOutputs.At (-46)) b ≤
        RingBuf.At (spreadPhase O samples st j).spreadOutputs (-49) b := by
      intro b
      have hAt1 : (spreadPhase O samples st j).fftOutputs.At (-46) =
          (spreadPhase O samples st j).fftOutputs.buf ((j - 45) % 256) := by
        rw [RingBuf.At, RingBuf.modIdx, hfi2, hfs2]
        congr 1
        omega
      have hAt2 : RingBuf.At (spreadPhase O samples st j).spreadOutputs (-49) =
          (spreadPhase O samples st j).spreadOutputs.buf ((j - 45 + 253) % 256) := by
        rw [RingBuf.At, RingBuf.modIdx, hsi2, hss2]
        congr 1
        omega
      rw [hAt1, hAt2]
      exact hinv2 (j - 45) (by omega) (by omega) b
    exact recognize_pkOk O hlg hr (spreadPhase O samples st j).fftOutputs
      (spreadPhase O samples st j).spreadOutputs j hS
      (show pkOk (spreadPhase O samples st j).peaksByBand from h.2)

theorem buildLoop_inv (O : Oracles) (sampleRate : Int) (samples : List ℚ)
    (hlg : Monotone O.lg) (hr : validRate sampleRate = true) (n : Nat) :
    BuildInv n ((List.range n).foldl (hopStep O sampleRate samples) initBuild) := by
  induction n with
  | zero =>
    refine ⟨⟨rfl, rfl, rfl, rfl, ?_⟩, ?_⟩
    · intro f hf
      exact absurd hf (Nat.not_lt_zero f)
    · show pkOk [[], [], [], [], []]
      intro l hl p hp
      have h5 : l = [] := by simpa using hl
      subst h5
      cases hp
  | succ n ih =>
    rw [List.range_succ, List.foldl_append, List.foldl_cons, List.foldl_nil]
    exact hopStep_inv O sampleRate samples hlg hr ih

set_option maxRecDepth 4000 in
/-- C9: for a supported sample rate and any input, under any oracle
environment with a monotone logarithm, every peak the builder stores has
its corrected bin in `[640, 64960]`: the band filter forces
`bin*sampleRate/131072 ≥ 250`, hence `bin ≥ 744`, and the sub-bin
variation is truncated from a quotient in `[-32, 32]`, so
`bin ≤ 1014*64 + 32`. -/
theorem C9_bin_range (O : Oracles) (hlg : Monotone O.lg) (sampleRate : Int)
    (hr : validRate sampleRate = true) (samples : List ℚ) :
    ∀ band ∈ (computeSignature O sampleRate samples).peaksByBand,
      ∀ p ∈ band, 640 ≤ p.bin ∧ p.bin ≤ 64960 := by
  have h := (buildLoop_inv O sampleRate samples hlg hr (hops samples.length)).2
  intro band hband p hp
  exact h band hband p hp

/-- Witness for C9: the constant-zero oracle environment at 16000 Hz on
the empty sample list. -/
theorem C9_bin_range_witness :
    Monotone (Oracles.lg ⟨fun _ => 0, fun _ _ => (0, 0), fun _ => 0⟩) ∧
      validRate (16000 : Int) = true ∧
      ∀ band ∈ (computeSignature ⟨fun _ => 0, fun _ _ => (0, 0), fun _ => 0⟩ 16000
          []).peaksByBand, ∀ p ∈ band, 640 ≤ p.bin ∧ p.bin ≤ 64960 :=
  ⟨monotone_const, by decide,
   C9_bin_range ⟨fun _ => 0, fun _ _ => (0, 0), fun _ => 0⟩ monotone_const 16000 (by decide) []⟩

/-! ## Claim C10: the samplems field -/

/-- `Identify` (src/models.go): the `samplems` field of the request body
is the Go expression `sig.numSamples/sig.sampleRate*1000`, which divides
(truncated integer division) before scaling. -/
def samplems (sig : Signature) : Int :=
  (sig.numSamples.tdiv sig.sampleRate) * 1000

/-- C10 (counterexample): the spec's own example fails.  At
`numSamples = 191999`, `sampleRate = 16000` the code divides first, so
`samplems = 11 * 1000 = 11000`, not the 11999 truncated-millisecond
duration the spec computes. -/
theorem C10_samplems_counterexample :
    samplems ⟨16000, 191999, [[], [], [], [], []]⟩ = 11000 ∧
      Int.tdiv (191999 * 1000) 16000 = 11999 ∧ (11000 : Int) ≠ 11999 :=
  ⟨by decide, by decide, by decide⟩

/-- C10 (amended): `samplems` divides before scaling, so it is the
sample duration in whole seconds expressed in milliseconds: it is a
multiple of 1000, and for a valid rate and a nonnegative sample count it
lower-bounds the true truncated millisecond duration
`(numSamples * 1000) tdiv sampleRate`, falling short of it by less than
1000. -/
theorem C10_samplems (sig : Signature) (hr : validRate sig.sampleRate = true)
    (hn : 0 ≤ sig.numSamples) :
    samplems sig % 1000 = 0 ∧
      samplems sig ≤ (sig.numSamples * 1000).tdiv sig.sampleRate ∧
      (sig.numSamples * 1000).tdiv sig.sampleRate < samplems sig + 1000 := by
  have hcases : sig.sampleRate = 8000 ∨ sig.sampleRate = 11025 ∨
      sig.sampleRate = 16000 ∨ sig.sampleRate = 32000 ∨ sig.sampleRate = 44100 := by
    simp only [validRate, Bool.or_eq_true, decide_eq_true_eq] at hr
    tauto
  have hrpos : 0 ≤ sig.sampleRate := by rcases hcases with h | h | h | h | h <;> omega
  have ht1 : sig.numSamples.tdiv sig.sampleRate = sig.numSamples / sig.sampleRate :=
    Int.tdiv_eq_ediv hn hrpos
  have ht2 : (sig.numSamples * 1000).tdiv sig.sampleRate =
      (sig.numSamples * 1000) / sig.sampleRate :=
    Int.tdiv_eq_ediv (by omega) hrpos
  rw [samplems, ht1, ht2]
  rcases hcases with h | h | h | h | h <;> rw [h] <;>
    exact ⟨Int.mul_emod_left _ _, by omega, by omega⟩

/-- Witness for C10: the 16000 Hz, 191999-sample signature. -/
theorem C10_samplems_witness :
    validRate (16000 : Int) = true ∧ (0 : Int) ≤ 191999 ∧
      (samplems ⟨16000, 191999, [[], [], [], [], []]⟩ % 1000 = 0 ∧
        samplems ⟨16000, 191999, [[], [], [], [], []]⟩ ≤
          Int.tdiv (191999 * 1000) 16000 ∧
        Int.tdiv (191999 * 1000) 16000 <
          samplems ⟨16000, 191999, [[], [], [], [], []]⟩ + 1000) :=
  ⟨by decide, by decide,
   C10_samplems ⟨16000, 191999, [[], [], [], [], []]⟩ (by decide) (by decide)⟩

/-! ## Claim C8: the 128-zero-sample fixture -/

set_option maxRecDepth 8000 in
/-- C8: on 128 zero samples the builder's loop body never runs
(no `i` has `i*128 + 128 < 128`), so for every oracle environment the
signature has empty peak tables, `sampleRate = 16000` and
`numSamples = 128`; its encoding is the fixed 56-byte header, whose
SHA-256 digest is
`4ae7d1ae7a4787a7d6cda559db6e17026f60369b3485b762759b7a07ff24fab9`. -/
theorem C8_fixture (O : Oracles) :
    computeSignature O 16000 (List.replicate 128 0) = ⟨16000, 128, [[], [], [], [], []]⟩ ∧
      (encode ⟨16000, 128, [[], [], [], [], []]⟩).length = 56 ∧
      sha256 (encode ⟨16000, 128, [[], [], [], [], []]⟩) =
        [0x4a, 0xe7, 0xd1, 0xae, 0x7a, 0x47, 0x87, 0xa7,
         0xd6, 0xcd, 0xa5, 0x59, 0xdb, 0x6e, 0x17, 0x02,
         0x6f, 0x60, 0x36, 0x9b, 0x34, 0x85, 0xb7, 0x62,
         0x75, 0x9b, 0x7a, 0x07, 0xff, 0x24, 0xfa, 0xb9] :=
  ⟨rfl, by decide, by decide⟩

end Barbershop
